import Mathlib

/-!
# Verification of the hierarchical search core of `mmg_toolbox`

Shallow embedding of `src/mmg_toolbox/nexus_functions.py`: the HDF5 tree data
model, the identity resolver (`_update_args`), the traversal-order policy
(`_reorder_group_items`), the search engines (`nx_find`, `nx_find_all`), the
value accessor (`nx_find_data`) and the rendering function
(`get_dataset_string`).

Recursive tree walks are embedded with an explicit fuel parameter; each
public wrapper supplies the node count of the tree as fuel, which is shown adequate
by the lemmas relating the walks (each recursive call descends to a node of
strictly smaller size, so the fuel never runs out on the wrapped calls).

Definitions named after source functions are direct translations of the
Python code.  Definitions whose names start with `spec` or `claim` follow the
wording of the natural-language specification instead, and are compared with
the translated code by the theorems.
-/

/-- Attribute values attached to HDF5 nodes: decoded strings (covering both
`str` and `bytes` values of the source, which `bytes2str` identifies), string
lists, or numbers (as used by the `decimals` attribute).  The specification's
data model restricts attributes that take part in the search to the first two
forms. -/
inductive AttrVal where
  | str (s : String)
  | strList (l : List String)
  | num (n : Int)
deriving DecidableEq, Repr

/-- Decimal fixed-point scalar `m / 10 ^ e`: the numeric value domain used to
model scalar dataset contents exactly. -/
abbrev Dec := Int × Nat

/-- A dataset's stored value: a numeric array (dtype name, whether the dtype
is a float type, shape, flattened data) or a string array (shape, flattened
data).  A scalar is an array of shape `[]` holding a single element. -/
inductive DsData where
  | num (dtypeName : String) (isFloat : Bool) (shape : List Nat) (data : List Dec)
  | str (shape : List Nat) (data : List String)
deriving DecidableEq, Repr

/-- Attribute mapping of a node (h5py `obj.attrs`): an association list, with
unique keys in real files. -/
abbrev Attrs := List (String × AttrVal)

/-- An HDF5 node: a group with attributes and ordered named children, or a
dataset with attributes and stored data. -/
inductive Node where
  | group (attrs : Attrs) (children : List (String × Node))
  | dataset (attrs : Attrs) (data : DsData)

mutual

/-- The number of nodes of a tree, used as fuel for the recursive walks. -/
def nodeSize : Node → Nat
  | .dataset _ _ => 1
  | .group _ children => 1 + pairListSize children

/-- The total number of nodes under a child list. -/
def pairListSize : List (String × Node) → Nat
  | [] => 0
  | (_, n) :: rest => nodeSize n + pairListSize rest

end

/-- `NXCLASS = 'NX_class'` from the source. -/
def NXCLASS : String := "NX_class"

/-- `NX_DEFINITION = 'definition'` from the source. -/
def NX_DEFINITION : String := "definition"

/-- `NX_DEFAULT = 'default'` from the source. -/
def NX_DEFAULT : String := "default"

/-- `NX_AXES = 'axes'` from the source. -/
def NX_AXES : String := "axes"

/-- `NX_SIGNAL = 'signal'` from the source. -/
def NX_SIGNAL : String := "signal"

/-- The second member of `SEARCH_ATTRS = (NXCLASS, 'local_name')`. -/
def LOCAL_NAME : String := "local_name"

/-- `bytes2str`: byte strings already appear decoded in the model, so strings
map to themselves and a list maps to `bytes2str` of its first element
(`next(iter(value), '')`), i.e. the first element or `''`.  Numeric attribute
values never reach `bytes2str` in data-model conformant files. -/
def bytes2str : AttrVal → String
  | .str s => s
  | .strList l => l.headD ""
  | .num _ => ""

/-- The attributes of a node (`obj.attrs`). -/
def nodeAttrs : Node → Attrs
  | .group attrs _ => attrs
  | .dataset attrs _ => attrs

/-- The ordered children of a node (`group.items()`); empty for datasets. -/
def childrenOf : Node → List (String × Node)
  | .group _ children => children
  | .dataset _ _ => []

/-- `isinstance(obj, h5py.Group)`. -/
def isGroup : Node → Bool
  | .group _ _ => true
  | .dataset _ _ => false

/-- `isinstance(obj, h5py.Dataset)`. -/
def isDataset : Node → Bool
  | .group _ _ => false
  | .dataset _ _ => true

/-- `attrs.get(key, '')`: attribute lookup with the empty string default used
throughout the search code. -/
def attrGetD (attrs : Attrs) (key : String) : AttrVal :=
  (List.lookup key attrs).getD (.str "")

/-- Split a character list at every occurrence of a separator; the analogue of
`str.split(sep)`, so the result is never empty and an empty input yields one
empty component. -/
def splitCharList (sep : Char) : List Char → List (List Char)
  | [] => [[]]
  | c :: rest =>
    match splitCharList sep rest, decide (c = sep) with
    | r, true => [] :: r
    | [], false => [[c]]
    | h :: t, false => (c :: h) :: t

/-- The slash-separated components of an h5py path (`path.split('/')`). -/
def pathComponents (path : String) : List String :=
  (splitCharList '/' path.toList).map String.mk

/-- One step of h5py path resolution: look a single path component up among
the children of a node. -/
def lookupChild (children : List (String × Node)) (name : String) : Option Node :=
  List.lookup name children

/-- Walk a list of slash-separated path components down the tree. -/
def walkPath : Node → List String → Option Node
  | n, [] => some n
  | n, c :: rest =>
    match n with
    | .group _ children =>
      match lookupChild children c with
      | some m => walkPath m rest
      | none => none
    | .dataset _ _ => none

/-- h5py `name in group` / `group[name]`: resolve a (possibly slash-separated)
path relative to a node. -/
def getPath (n : Node) (path : String) : Option Node :=
  walkPath n (pathComponents path)

/-- `bytes2str(dataset[()])` for the application-definition lookup: the first
string stored in a string dataset.  Groups and numeric datasets never appear
as `definition` entries in data-model conformant files. -/
def nodeValueStr : Node → String
  | .dataset _ (.str _ data) => data.headD ""
  | _ => ""

/-- Python `dict` assignment `d[k] = v`: replace the value in place when the
key is present (insertion order is preserved), append otherwise. -/
def dictInsert (d : List (String × Node)) (k : String) (v : Node) :
    List (String × Node) :=
  if (d.map Prod.fst).contains k then
    d.map (fun p => if p.1 = k then (k, v) else p)
  else d ++ [(k, v)]

/-- Python `dict.update`: left fold of `dictInsert` over the new items. -/
def dictUpdateList (d : List (String × Node)) (l : List (String × Node)) :
    List (String × Node) :=
  l.foldl (fun acc p => dictInsert acc p.1 p.2) d

/-- The initial `items` dictionary built by `_reorder_group_items`: the
`@default` object keyed by the attribute value, when
`NX_DEFAULT in group.attrs and group.attrs[NX_DEFAULT] in group` (with h5py
path semantics).  A non-string `default` attribute does not occur in
data-model conformant files and is treated as absent. -/
def defaultItems (attrs : Attrs) (children : List (String × Node)) :
    List (String × Node) :=
  match List.lookup NX_DEFAULT attrs with
  | some (.str d) =>
    match getPath (.group attrs children) d with
    | some obj => [(d, obj)]
    | none => []
  | _ => []

/-- `_reorder_group_items`: the `@default` object first, then the datasets,
then the remaining items, combined with Python `dict` update semantics. -/
def _reorder_group_items : Node → List (String × Node)
  | .dataset _ _ => []
  | .group attrs children =>
    let items1 := dictUpdateList (defaultItems attrs children)
      (children.filter (fun p => isDataset p.2))
    dictUpdateList items1 children

/-- The `names` list built by `_update_args`: the node's own name, the
`SEARCH_ATTRS` attribute values (with `''` for a missing attribute), an
application-definition value for groups that contain one, and the structural
`axes`/`signal` markers taken from the parent group's attributes. -/
def updateNames (name : String) (obj : Node) (axes signal : String) : List String :=
  [name, bytes2str (attrGetD (nodeAttrs obj) NXCLASS),
   bytes2str (attrGetD (nodeAttrs obj) LOCAL_NAME)] ++
  (match obj with
   | .group _ _ =>
     match getPath obj NX_DEFINITION with
     | some defNode => [nodeValueStr defNode]
     | none => []
   | .dataset _ _ => []) ++
  (if name = axes then [NX_AXES] else []) ++
  (if name = signal then [NX_SIGNAL] else [])

/-- `_update_args`: consume the first search token when it is among the match
names of the object, otherwise return the token list unchanged.  On an empty
token list the Python code raises `IndexError` at `args[0]`; that case is
modelled by `updateArgsExc`, and this total version is only applied to
non-empty token lists by the wrapped searches. -/
def _update_args (name : String) (obj : Node) (axes signal : String) :
    List String → List String
  | [] => []
  | a :: rest => if a ∈ updateNames name obj axes signal then rest else a :: rest

/-- `_update_args` with the `IndexError` of `args[0]` made explicit. -/
def updateArgsExc (name : String) (obj : Node) (axes signal : String) :
    List String → Except Unit (List String)
  | [] => .error ()
  | a :: rest => .ok (if a ∈ updateNames name obj axes signal then rest else a :: rest)

/-- The fast path of `recursor`: `if len(args) == 1 and args[0] in group:
return group[args[0]]`. -/
def fastPath (g : Node) (args : List String) : Option Node :=
  match args with
  | [a] => getPath g a
  | _ => none

/-- The `for name, obj in items.items()` loop of `nx_find`'s `recursor`:
return the object on full consumption, recurse into groups (with the reduced
token list on a match and the unchanged list otherwise), stop at the first
success. -/
def findLoop (f : Node → List String → Option Node)
    (consume : String → Node → List String) :
    List (String × Node) → Option Node
  | [] => none
  | (name, obj) :: rest =>
    let newArgs := consume name obj
    if newArgs.isEmpty then some obj
    else
      match obj with
      | .group _ _ =>
        match f obj newArgs with
        | some r => some r
        | none => findLoop f consume rest
      | .dataset _ _ => findLoop f consume rest

/-- `nx_find`'s `recursor`, with fuel. -/
def nxFindF : Nat → Node → List String → Option Node
  | 0, _, _ => none
  | fuel + 1, g, args =>
    match fastPath g args with
    | some obj => some obj
    | none =>
      let axes := bytes2str (attrGetD (nodeAttrs g) NX_AXES)
      let signal := bytes2str (attrGetD (nodeAttrs g) NX_SIGNAL)
      findLoop (nxFindF fuel) (fun name obj => _update_args name obj axes signal args)
        (_reorder_group_items g)

/-- `nx_find(parent, *field_or_class)`. -/
def nx_find (parent : Node) (args : List String) : Option Node :=
  nxFindF (nodeSize parent) parent args

/-- The accumulation loop shared by `nx_find_all`'s `recursor` and the
specification-side enumerations: every full consumption is recorded and the
walk continues; groups are entered with the reduced token list on a match and
the unchanged list otherwise. -/
def matchLoop (f : Node → List String → List Node)
    (consume : String → Node → List String) :
    List (String × Node) → List Node
  | [] => []
  | (name, obj) :: rest =>
    (let newArgs := consume name obj
     if newArgs.isEmpty then [obj]
     else
       match obj with
       | .group _ _ => f obj newArgs
       | .dataset _ _ => []) ++ matchLoop f consume rest

/-- `nx_find_all`'s `recursor`, with fuel: natural child order, the direct
path match recorded first, no early return. -/
def nxFindAllF : Nat → Node → List String → List Node
  | 0, _, _ => []
  | fuel + 1, g, args =>
    (fastPath g args).toList ++
    (let axes := bytes2str (attrGetD (nodeAttrs g) NX_AXES)
     let signal := bytes2str (attrGetD (nodeAttrs g) NX_SIGNAL)
     matchLoop (nxFindAllF fuel) (fun name obj => _update_args name obj axes signal args)
       (childrenOf g))

/-- `nx_find_all(parent, *field_or_class)`. -/
def nx_find_all (parent : Node) (args : List String) : List Node :=
  nxFindAllF (nodeSize parent) parent args

/-- The `recursor` loop with the `IndexError` of `_update_args` propagated. -/
def findLoopExc (f : Node → List String → Except Unit (Option Node))
    (consume : String → Node → Except Unit (List String)) :
    List (String × Node) → Except Unit (Option Node)
  | [] => .ok none
  | (name, obj) :: rest =>
    match consume name obj with
    | .error e => .error e
    | .ok newArgs =>
      if newArgs.isEmpty then .ok (some obj)
      else
        match obj with
        | .group _ _ =>
          match f obj newArgs with
          | .error e => .error e
          | .ok (some r) => .ok (some r)
          | .ok none => findLoopExc f consume rest
        | .dataset _ _ => findLoopExc f consume rest

/-- `nx_find` with the `IndexError` raised by `_update_args` on an empty token
list made explicit, with fuel. -/
def nxFindExcF : Nat → Node → List String → Except Unit (Option Node)
  | 0, _, _ => .ok none
  | fuel + 1, g, args =>
    match fastPath g args with
    | some obj => .ok (some obj)
    | none =>
      let axes := bytes2str (attrGetD (nodeAttrs g) NX_AXES)
      let signal := bytes2str (attrGetD (nodeAttrs g) NX_SIGNAL)
      findLoopExc (nxFindExcF fuel) (fun name obj => updateArgsExc name obj axes signal args)
        (_reorder_group_items g)

/-- `nx_find` with explicit exception behaviour. -/
def nx_find_exc (parent : Node) (args : List String) : Except Unit (Option Node) :=
  nxFindExcF (nodeSize parent) parent args

/-- The value returned by `nx_find_data` when the match is a dataset: the raw
numeric content (`dataset[()]`) or the decoded strings (`dataset.asstr()[()]`). -/
inductive NxData where
  | numArr (shape : List Nat) (data : List Dec)
  | strArr (shape : List Nat) (data : List String)
deriving DecidableEq, Repr

/-- `nx_find_data(parent, *field_or_class, default=default)`: run `nx_find`;
a dataset match is decoded (numeric dtype to its raw value, otherwise to
decoded strings), anything else returns the caller's default. -/
def nx_find_data {α : Type} (parent : Node) (args : List String) (default : α) :
    NxData ⊕ α :=
  match nx_find parent args with
  | some (.dataset _ (.num _ _ shape data)) => Sum.inl (.numArr shape data)
  | some (.dataset _ (.str shape data)) => Sum.inl (.strArr shape data)
  | _ => Sum.inr default

/-- Round an integer quotient `m / p` (`p > 0`) to the nearest integer, ties
to even: NumPy's rounding mode. -/
def roundHalfEvenDiv (m p : Int) : Int :=
  let q := m / p
  let r := m % p
  if 2 * r < p then q
  else if p < 2 * r then q + 1
  else if q % 2 = 0 then q else q + 1

/-- `value.round(decimals)` on a decimal scalar. -/
def roundDec (v : Dec) (d : Int) : Dec :=
  if (v.2 : Int) ≤ d then v
  else
    let k := ((v.2 : Int) - d).toNat
    let q := roundHalfEvenDiv v.1 (10 ^ k)
    if d < 0 then (q * 10 ^ (-d).toNat, 0) else (q, d.toNat)

/-- `str(value)` for a float scalar holding a decimal value: digits with a
decimal point, at least one fractional digit, trailing zeros dropped. -/
def decStr (v : Dec) : String :=
  let sign := if v.1 < 0 then "-" else ""
  let n := v.1.natAbs
  if v.2 = 0 then sign ++ toString n ++ ".0"
  else
    let s := toString n
    let digits := (List.replicate (v.2 + 1 - s.length) '0') ++ s.toList
    let intPart := String.mk (digits.take (digits.length - v.2))
    let fracDigits := digits.drop (digits.length - v.2)
    let fracTrimmed := (fracDigits.reverse.dropWhile (fun c => c = '0')).reverse
    sign ++ intPart ++ "." ++ String.mk (if fracTrimmed.isEmpty then ['0'] else fracTrimmed)

/-- `str(value)` for a numeric scalar: float formatting for float dtypes,
plain digits for integer dtypes. -/
def numValStr (isFloat : Bool) (v : Dec) : String :=
  if isFloat then decStr v else toString (v.1 / (10 ^ v.2 : Int))

/-- `f"{dataset.shape}"`: the Python tuple rendering of a shape. -/
def pyShape : List Nat → String
  | [] => "()"
  | [n] => "(" ++ toString n ++ ",)"
  | ns => "(" ++ String.intercalate ", " (ns.map toString) ++ ")"

/-- `get_dataset_string`: numeric arrays of more than one element render as
`dtype shape`; numeric scalars are rounded by a `decimals` attribute and
suffixed by a `units` attribute; scalar strings render as themselves; string
arrays render as their first element and length.  Groups never reach this
function. -/
def get_dataset_string : Node → String
  | .group _ _ => ""
  | .dataset attrs d =>
    match d with
    | .num dtypeName isFloat shape data =>
      if 1 < shape.prod then dtypeName ++ " " ++ pyShape shape
      else
        let value := data.headD (0, 0)
        let value :=
          match List.lookup "decimals" attrs with
          | some (.num k) => roundDec value k
          | _ => value
        match List.lookup "units" attrs with
        | some u => numValStr isFloat value ++ " " ++ bytes2str u
        | none => numValStr isFloat value
    | .str shape data =>
      if shape.length = 0 then data.headD ""
      else "['" ++ data.headD "" ++ "', ...(" ++ toString (shape.headD 0) ++ ")]"

/-! ## Wellformedness predicates

The specification's data model guarantees that names are unique within a
parent and that pointer attributes name direct children.  The predicates
below state those invariants; the theorems mark exactly which claims need
which invariant. -/

/-- Check a node predicate on every child of a child list. -/
def listAllNodes (f : Node → Bool) : List (String × Node) → Bool
  | [] => true
  | (_, obj) :: rest => f obj && listAllNodes f rest

/-- Child names are unique within a single group (the data-model invariant
"names are unique within a parent's children"). -/
def localUniq (n : Node) : Bool :=
  decide ((childrenOf n).map Prod.fst).Nodup

/-- Child names are unique within every group of the tree, with fuel. -/
def uniqNamesF : Nat → Node → Bool
  | 0, n => localUniq n
  | fuel + 1, n => localUniq n && listAllNodes (uniqNamesF fuel) (childrenOf n)

/-- Child names are unique within every group of the tree. -/
def uniqNames (n : Node) : Bool := uniqNamesF (nodeSize n) n

/-- The `default` attribute, when present as a string, is a plain name (a
single path component), so that h5py path resolution coincides with direct
child lookup. -/
def plainDefault (attrs : Attrs) : Bool :=
  match List.lookup NX_DEFAULT attrs with
  | some (.str d) => (pathComponents d).length == 1
  | _ => true

/-- The `default` attribute of a single group is a plain name or absent;
datasets carry no traversal order, so they pass. -/
def localGoodDefault : Node → Bool
  | .dataset _ _ => true
  | .group attrs _ => plainDefault attrs

/-- Every group of the tree has a plain-name `default` attribute (or none),
with fuel. -/
def goodDefaultsF : Nat → Node → Bool
  | 0, n => localGoodDefault n
  | fuel + 1, n => localGoodDefault n && listAllNodes (goodDefaultsF fuel) (childrenOf n)

/-- Every group of the tree has a plain-name `default` attribute (or none). -/
def goodDefaults (n : Node) : Bool := goodDefaultsF (nodeSize n) n

/-- A group's `definition` entry, when present, is a string dataset (the
shape the application-definition lookup of `_update_args` expects). -/
def defChildOkLocal : Node → Bool
  | .dataset _ _ => true
  | .group attrs children =>
    match getPath (.group attrs children) NX_DEFINITION with
    | some (.dataset _ (.str _ _)) => true
    | some _ => false
    | none => true

/-- Every group of the tree has a well-shaped `definition` entry (or none),
with fuel. -/
def defChildrenOkF : Nat → Node → Bool
  | 0, n => defChildOkLocal n
  | fuel + 1, n => defChildOkLocal n && listAllNodes (defChildrenOkF fuel) (childrenOf n)

/-- Every group of the tree has a well-shaped `definition` entry (or none). -/
def defChildrenOk (n : Node) : Bool := defChildrenOkF (nodeSize n) n

/-! ## Specification-side definitions

These follow the wording of the specification and of the claims, for the
refinement theorems; they are deliberately written from the spec's words, not
from the code. -/

/-- The travel order of §4.3 as the claim words it: the child named by the
`default` attribute first (direct child lookup, ignored when it names no
child), then the datasets not already placed in original order, then the
remaining children in original order. -/
def specReorderClaim (attrs : Attrs) (children : List (String × Node)) :
    List (String × Node) :=
  match List.lookup NX_DEFAULT attrs with
  | some (.str d) =>
    match List.lookup d children with
    | some c =>
      (d, c) :: (children.filter (fun p => isDataset p.2 && p.1 != d) ++
        children.filter (fun p => !isDataset p.2 && p.1 != d))
    | none =>
      children.filter (fun p => isDataset p.2) ++
        children.filter (fun p => !isDataset p.2)
  | _ =>
    children.filter (fun p => isDataset p.2) ++
      children.filter (fun p => !isDataset p.2)

/-- The claim-order applied to a node. -/
def specReorderNode : Node → List (String × Node)
  | .dataset _ _ => []
  | .group attrs children => specReorderClaim attrs children

/-- The identity set exactly as claim C3 words it: the node's own name,
together with — when present — the class-marker value, the alternate-identity
value and (groups only) the `definition` child dataset's value, plus the
structural `axes`/`signal` markers. -/
def claimMatchNames (name : String) (obj : Node) (axes signal : String) :
    List String :=
  [name] ++
  (match List.lookup NXCLASS (nodeAttrs obj) with
   | some v => [bytes2str v]
   | none => []) ++
  (match List.lookup LOCAL_NAME (nodeAttrs obj) with
   | some v => [bytes2str v]
   | none => []) ++
  (match obj with
   | .group _ children =>
     match List.lookup NX_DEFINITION children with
     | some (.dataset _ (.str _ data)) => [data.headD ""]
     | _ => []
   | .dataset _ _ => []) ++
  (if name = axes then [NX_AXES] else []) ++
  (if name = signal then [NX_SIGNAL] else [])

/-- The identity set of claim C3 amended by the behaviour `attrs.get(attr,'')`
actually produces: a missing class-marker or alternate-identity attribute
contributes the empty string instead of being omitted. -/
def amendedMatchNames (name : String) (obj : Node) (axes signal : String) :
    List String :=
  [name] ++
  (match List.lookup NXCLASS (nodeAttrs obj) with
   | some v => [bytes2str v]
   | none => [""]) ++
  (match List.lookup LOCAL_NAME (nodeAttrs obj) with
   | some v => [bytes2str v]
   | none => [""]) ++
  (match obj with
   | .group _ children =>
     match List.lookup NX_DEFINITION children with
     | some (.dataset _ (.str _ data)) => [data.headD ""]
     | _ => []
   | .dataset _ _ => []) ++
  (if name = axes then [NX_AXES] else []) ++
  (if name = signal then [NX_SIGNAL] else [])

/-- Token consumption as the claims word it, against `amendedMatchNames`. -/
def specConsume (name : String) (obj : Node) (axes signal : String) :
    List String → List String
  | [] => []
  | a :: rest => if a ∈ amendedMatchNames name obj axes signal then rest else a :: rest

/-- The enumeration, in claim C1's priority traversal order, of every node at
which the last token is consumed after the whole token sequence has been
matched hierarchically.  When `fp` is set, the direct-path fast-path match of
the source is listed first at every level; with `fp := false` this is exactly
the enumeration claim C1 describes. -/
def specMatchesF (fp : Bool) : Nat → Node → List String → List Node
  | 0, _, _ => []
  | fuel + 1, g, args =>
    (if fp then (fastPath g args).toList else []) ++
    (let axes := bytes2str (attrGetD (nodeAttrs g) NX_AXES)
     let signal := bytes2str (attrGetD (nodeAttrs g) NX_SIGNAL)
     matchLoop (specMatchesF fp fuel) (fun name obj => specConsume name obj axes signal args)
       (specReorderNode g))

/-- All hierarchical matches in priority order, fast-path matches included. -/
def specMatches (g : Node) (args : List String) : List Node :=
  specMatchesF true (nodeSize g) g args

/-- All hierarchical matches in the pure priority order of claim C1 (no
fast path). -/
def specMatchesPure (g : Node) (args : List String) : List Node :=
  specMatchesF false (nodeSize g) g args

/-! ## Concrete trees used by the sanity checks, counterexamples and
witnesses -/

/-- A tree for the spec's axes/signal scenario: a group with
`signal='intensity'` and a child dataset `intensity`. -/
def sigTree : Node :=
  .group [(NX_SIGNAL, .str "intensity")]
    [("intensity", .dataset [] (.num "float64" true [] [(5, 0)]))]

/-- Pull a distinguishing `id` attribute off a node. -/
def nodeTag (n : Node) : String := bytes2str (attrGetD (nodeAttrs n) "id")

/-- The direct child `A` of `fastTree`. -/
def dsTop : Node := .dataset [("id", .str "top")] (.str [] ["t"])

/-- The nested `B/A` dataset of `fastTree`. -/
def dsDeep : Node := .dataset [("id", .str "deep")] (.str [] ["d"])

/-- A tree whose `default` attribute sends the priority traversal into `B`
first, while the direct-path fast path resolves the token `A` at the root. -/
def fastTree : Node :=
  .group [(NX_DEFAULT, .str "B")]
    [("A", dsTop), ("B", .group [] [("A", dsDeep)])]


/-- The dataset reached by the slash-path `default` of `slashTree`. -/
def dsSlash : Node := .dataset [] (.str [] ["b"])

/-- A tree whose `default` attribute holds the slash path `a/b`, which h5py
resolves to a grandchild. -/
def slashTree : Node :=
  .group [(NX_DEFAULT, .str "a/b")] [("a", .group [] [("b", dsSlash)])]


/-- A tree whose slash-path `default` doubles as its `axes` pointer: the
grandchild consumes the token `axes` under a dictionary key that is not the
name of any child. -/
def axesSlashTree : Node :=
  .group [(NX_DEFAULT, .str "a/b"), (NX_AXES, .str "a/b")]
    [("a", .group [] [("b", dsSlash)])]


/-- A dataset without attributes: its identity set nevertheless contains the
empty string. -/
def plainDs : Node := .dataset [] (.num "int32" false [] [(7, 0)])

/-- A one-child tree for the empty-token observation. -/
def plainTree : Node := .group [] [("data", plainDs)]


/-- The `@signal` dataset of `sigTree`. -/
def sigDs : Node := .dataset [] (.num "float64" true [] [(5, 0)])


/-- A tree whose only child is a class-marked group, for the group-match
observation of `nx_find_data`. -/
def entryTree : Node :=
  .group [] [("entry", .group [(NXCLASS, .str "NXentry")] [])]

/-! ## Sanity checks on concrete trees -/

example : nx_find fastTree ["A"] = some dsTop := rfl
example : (specMatchesPure fastTree ["A"]).head? = some dsDeep := rfl
example : (specMatches fastTree ["A"]).head? = some dsTop := rfl
example : (_reorder_group_items slashTree).map Prod.fst = ["a/b", "a"] := rfl
example : nx_find axesSlashTree ["axes"] = some dsSlash := rfl
example : nx_find_all axesSlashTree ["axes"] = [] := rfl
example : specMatches axesSlashTree ["axes"] = [] := rfl
example : nx_find plainTree [""] = some plainDs := rfl
example : nx_find sigTree ["signal"] = some sigDs := rfl
example : nx_find entryTree ["NXentry"] = some (.group [(NXCLASS, .str "NXentry")] []) := rfl
example : nx_find_data entryTree ["NXentry"] (-1 : Int) = Sum.inr (-1) := rfl
example : nx_find_exc (.group [] []) ([] : List String) = .ok none := rfl



example : nx_find sigTree ["signal"] =
    some (.dataset [] (.num "float64" true [] [(5, 0)])) := rfl

example : nx_find sigTree ["NoSuchThing"] = none := rfl

example : nx_find_all sigTree ["signal"] =
    [.dataset [] (.num "float64" true [] [(5, 0)])] := rfl

example : nx_find_data sigTree ["NoSuchThing"] (-1 : Int) = Sum.inr (-1) := rfl

example : get_dataset_string
    (.dataset [("decimals", .num 2), ("units", .str "eV")]
      (.num "float64" true [] [(314159, 5)])) = "3.14 eV" := rfl

/-! ## Basic lemmas -/

theorem nodeSize_pos (n : Node) : 1 ≤ nodeSize n := by
  cases n <;> simp [nodeSize]

theorem pairListSize_cons (p : String × Node) (l : List (String × Node)) :
    pairListSize (p :: l) = nodeSize p.2 + pairListSize l := by
  obtain ⟨a, n⟩ := p
  rfl

theorem nodeSize_le_of_mem {p : String × Node} {l : List (String × Node)}
    (h : p ∈ l) : nodeSize p.2 ≤ pairListSize l := by
  induction l with
  | nil => cases h
  | cons q rest ih =>
    rw [pairListSize_cons]
    rcases List.mem_cons.mp h with rfl | h
    · exact Nat.le_add_right _ _
    · exact Nat.le_trans (ih h) (Nat.le_add_left _ _)

theorem nodeSize_lt_of_child {attrs : Attrs} {children : List (String × Node)}
    {p : String × Node} (h : p ∈ children) :
    nodeSize p.2 < nodeSize (.group attrs children) := by
  have := nodeSize_le_of_mem h
  simp only [nodeSize]
  omega

theorem listAllNodes_forall {f : Node → Bool} {l : List (String × Node)}
    (h : listAllNodes f l = true) : ∀ p ∈ l, f p.2 = true := by
  induction l with
  | nil => intro p hp; cases hp
  | cons q rest ih =>
    intro p hp
    obtain ⟨a, n⟩ := q
    simp only [listAllNodes, Bool.and_eq_true] at h
    rcases List.mem_cons.mp hp with rfl | hp
    · exact h.1
    · exact ih h.2 p hp

theorem head?_append (l l' : List α) :
    (l ++ l').head? = match l with | [] => l'.head? | a :: _ => some a := by
  cases l <;> rfl

theorem splitCharList_ne_nil (sep : Char) (cs : List Char) :
    splitCharList sep cs ≠ [] := by
  induction cs with
  | nil => simp [splitCharList]
  | cons c rest ih =>
    unfold splitCharList
    rcases h : splitCharList sep rest with _ | ⟨hd, tl⟩
    · exact absurd h ih
    · by_cases hc : c = sep <;> simp [hc]

theorem pathComponents_ne_nil (path : String) : pathComponents path ≠ [] := by
  unfold pathComponents
  simpa using splitCharList_ne_nil '/' path.toList

theorem splitCharList_cons_eq (sep c : Char) (rest : List Char) :
    splitCharList sep (c :: rest) =
      match splitCharList sep rest, decide (c = sep) with
      | r, true => [] :: r
      | [], false => [[c]]
      | h :: t, false => (c :: h) :: t := rfl

theorem splitCharList_length_one {sep : Char} {cs : List Char}
    (h : (splitCharList sep cs).length = 1) : splitCharList sep cs = [cs] := by
  induction cs with
  | nil => rfl
  | cons c rest ih =>
    rcases hr : splitCharList sep rest with _ | ⟨hd, tl⟩
    · exact absurd hr (splitCharList_ne_nil sep rest)
    · rw [splitCharList_cons_eq, hr] at h ⊢
      by_cases hc : c = sep
      · simp [hc] at h
      · have hd' : decide (c = sep) = false := by simp [hc]
        rw [hd'] at h ⊢
        simp only [List.length_cons] at h
        have htl : tl = [] := List.length_eq_zero.mp (by omega)
        subst htl
        have h2 : splitCharList sep rest = [rest] := ih (by rw [hr]; rfl)
        rw [hr] at h2
        cases h2
        rfl

theorem string_mk_toList (s : String) : String.mk s.toList = s := rfl

theorem pathComponents_single {d : String}
    (h : (pathComponents d).length = 1) : pathComponents d = [d] := by
  unfold pathComponents at h ⊢
  rw [List.length_map] at h
  rw [splitCharList_length_one h]
  simp [string_mk_toList]

theorem lookup_mem {a : String} {b : Node} {l : List (String × Node)}
    (h : List.lookup a l = some b) : (a, b) ∈ l := by
  induction l with
  | nil => cases h
  | cons q rest ih =>
    obtain ⟨k, v⟩ := q
    simp only [List.lookup] at h
    by_cases hk : a = k
    · have hb : (a == k) = true := by simpa using hk
      rw [hb] at h
      cases h
      subst hk
      exact List.mem_cons_self _ _
    · have hb : (a == k) = false := by simpa using hk
      rw [hb] at h
      exact List.mem_cons_of_mem _ (ih h)

/-! ## Dictionary lemmas: order and membership behaviour of Python `dict`
update as used by `_reorder_group_items` -/

theorem contains_key_iff {l : List String} {k : String} :
    l.contains k = true ↔ k ∈ l := by simp

theorem mem_dictInsert {q : String × Node} {d : List (String × Node)} {k : String}
    {v : Node} (h : q ∈ dictInsert d k v) : q ∈ d ∨ q = (k, v) := by
  unfold dictInsert at h
  by_cases hc : (d.map Prod.fst).contains k
  · rw [if_pos hc] at h
    obtain ⟨p, hp, hpq⟩ := List.mem_map.mp h
    by_cases hpk : p.1 = k
    · right
      rw [if_pos hpk] at hpq
      exact hpq.symm
    · left
      rw [if_neg hpk] at hpq
      exact hpq ▸ hp
  · rw [if_neg hc] at h
    rcases List.mem_append.mp h with h | h
    · exact Or.inl h
    · right
      simpa using h

theorem dictInsert_mem_of_mem {q : String × Node} {d : List (String × Node)}
    {k : String} {v : Node} (hq : q ∈ d) (hk : q.1 ≠ k) : q ∈ dictInsert d k v := by
  unfold dictInsert
  by_cases hc : (d.map Prod.fst).contains k
  · rw [if_pos hc]
    refine List.mem_map.mpr ⟨q, hq, ?_⟩
    rw [if_neg hk]
  · rw [if_neg hc]
    exact List.mem_append_left _ hq

theorem mem_dictInsert_self (d : List (String × Node)) (k : String) (v : Node) :
    (k, v) ∈ dictInsert d k v := by
  unfold dictInsert
  by_cases hc : (d.map Prod.fst).contains k
  · rw [if_pos hc]
    obtain ⟨p, hp, hpk⟩ := List.mem_map.mp (contains_key_iff.mp hc)
    refine List.mem_map.mpr ⟨p, hp, ?_⟩
    rw [if_pos hpk]
  · rw [if_neg hc]
    exact List.mem_append_right _ (List.mem_singleton.mpr rfl)

theorem mem_dictUpdateList_preserve {q : String × Node} {d : List (String × Node)}
    {l : List (String × Node)} (hq : q ∈ d) (hl : ∀ r ∈ l, r.1 ≠ q.1) :
    q ∈ dictUpdateList d l := by
  induction l generalizing d with
  | nil => exact hq
  | cons r rest ih =>
    refine ih (dictInsert_mem_of_mem hq ?_) (fun r' hr' => hl r' (List.mem_cons_of_mem _ hr'))
    exact fun h => hl r (List.mem_cons_self _ _) h.symm

theorem mem_dictUpdateList_right {l : List (String × Node)}
    (hnd : (l.map Prod.fst).Nodup) {p : String × Node} (hp : p ∈ l)
    (d : List (String × Node)) : p ∈ dictUpdateList d l := by
  induction l generalizing d with
  | nil => cases hp
  | cons r rest ih =>
    obtain ⟨a, b⟩ := r
    simp only [List.map_cons, List.nodup_cons] at hnd
    obtain ⟨ha, hnd'⟩ := hnd
    rcases List.mem_cons.mp hp with rfl | hp
    · show (a, b) ∈ dictUpdateList (dictInsert d a b) rest
      refine mem_dictUpdateList_preserve (mem_dictInsert_self d a b) ?_
      intro r hr h
      apply ha
      have h' : r.1 = a := h
      rw [← h']
      exact List.mem_map_of_mem Prod.fst hr
    · exact ih hnd' hp _

theorem mem_dictUpdateList {q : String × Node} {d l : List (String × Node)}
    (h : q ∈ dictUpdateList d l) : q ∈ d ∨ q ∈ l := by
  induction l generalizing d with
  | nil => exact Or.inl h
  | cons r rest ih =>
    rcases ih h with h' | h'
    · rcases mem_dictInsert h' with h'' | h''
      · exact Or.inl h''
      · exact Or.inr (h'' ▸ List.mem_cons_self _ _)
    · exact Or.inr (List.mem_cons_of_mem _ h')

theorem dictUpdateList_eq {l d : List (String × Node)}
    (hnd : (l.map Prod.fst).Nodup)
    (hagree : ∀ p ∈ l, ∀ q ∈ d, p.1 = q.1 → p.2 = q.2) :
    dictUpdateList d l =
      d ++ l.filter (fun p => !((d.map Prod.fst).contains p.1)) := by
  induction l generalizing d with
  | nil => simp [dictUpdateList]
  | cons r rest ih =>
    obtain ⟨a, b⟩ := r
    simp only [List.map_cons, List.nodup_cons] at hnd
    obtain ⟨ha, hnd'⟩ := hnd
    show dictUpdateList (dictInsert d a b) rest = _
    by_cases hc : (d.map Prod.fst).contains a
    · have hid : dictInsert d a b = d := by
        unfold dictInsert
        rw [if_pos hc]
        have hpt : ∀ p ∈ d, (if p.1 = a then (a, b) else p) = p := by
          intro p hp
          by_cases h1 : p.1 = a
          · rw [if_pos h1]
            have hb : b = p.2 :=
              hagree (a, b) (List.mem_cons_self _ _) p hp h1.symm
            rw [hb, ← h1]
          · rw [if_neg h1]
        calc d.map (fun p => if p.1 = a then (a, b) else p)
            = d.map (fun p => p) := List.map_congr_left hpt
          _ = d := List.map_id' d
      rw [hid]
      rw [ih hnd' (fun p hp => hagree p (List.mem_cons_of_mem _ hp))]
      congr 1
      rw [List.filter_cons_of_neg (by simpa using hc)]
    · have hins : dictInsert d a b = d ++ [(a, b)] := by
        unfold dictInsert
        rw [if_neg hc]
      rw [hins]
      rw [ih hnd' ?agree]
      case agree =>
        intro p hp q hq h1
        rcases List.mem_append.mp hq with hq | hq
        · exact hagree p (List.mem_cons_of_mem _ hp) q hq h1
        · exfalso
          have hqe : q = (a, b) := by simpa using hq
          apply ha
          have hpa : p.1 = a := by rw [h1, hqe]
          rw [← hpa]
          exact List.mem_map_of_mem Prod.fst hp
      rw [List.filter_cons_of_pos (by simpa using hc)]
      rw [List.append_assoc, List.singleton_append]
      congr 2
      apply List.filter_congr
      intro p hp
      have hpa : p.1 ≠ a := fun h => ha (h ▸ List.mem_map_of_mem Prod.fst hp)
      simp [hpa, hc]

/-! ## Association list helpers under unique keys -/

theorem mem_lookup_nodup {l : List (String × Node)}
    (hnd : (l.map Prod.fst).Nodup) {p : String × Node} (hp : p ∈ l) :
    List.lookup p.1 l = some p.2 := by
  induction l with
  | nil => cases hp
  | cons q rest ih =>
    obtain ⟨k, v⟩ := q
    simp only [List.map_cons, List.nodup_cons] at hnd
    obtain ⟨hk, hnd'⟩ := hnd
    rcases List.mem_cons.mp hp with rfl | hp
    · simp [List.lookup]
    · have hne : p.1 ≠ k := by
        intro h
        exact hk (h ▸ List.mem_map_of_mem Prod.fst hp)
      simp only [List.lookup]
      have : (p.1 == k) = false := by simpa using hne
      rw [this]
      exact ih hnd' hp

theorem nodup_key_eq {l : List (String × Node)}
    (hnd : (l.map Prod.fst).Nodup) {p q : String × Node}
    (hp : p ∈ l) (hq : q ∈ l) (hk : p.1 = q.1) : p.2 = q.2 := by
  have h1 := mem_lookup_nodup hnd hp
  have h2 := mem_lookup_nodup hnd hq
  rw [hk] at h1
  rw [h1] at h2
  exact Option.some.inj h2

theorem key_mem_filter_iff {children : List (String × Node)}
    (hnd : (children.map Prod.fst).Nodup) {p : String × Node}
    (hp : p ∈ children) (f : String × Node → Bool) :
    p.1 ∈ (children.filter f).map Prod.fst ↔ f p = true := by
  constructor
  · intro h
    obtain ⟨q, hq, hqk⟩ := List.mem_map.mp h
    have hqc := List.mem_of_mem_filter hq
    have hqf := List.of_mem_filter hq
    have : q.2 = p.2 := nodup_key_eq hnd hqc hp hqk
    have hqp : q = p := Prod.ext hqk this
    exact hqp ▸ hqf
  · intro h
    exact List.mem_map_of_mem Prod.fst (List.mem_filter.mpr ⟨hp, h⟩)

/-! ## Traversal-order lemmas -/

theorem plainDefault_getPath {attrs : Attrs} {d : String}
    (hlk : List.lookup NX_DEFAULT attrs = some (.str d))
    (hpd : plainDefault attrs = true) (children : List (String × Node)) :
    getPath (.group attrs children) d = lookupChild children d := by
  unfold plainDefault at hpd
  rw [hlk] at hpd
  have hlen : (pathComponents d).length = 1 := by simpa using hpd
  unfold getPath
  rw [pathComponents_single hlen]
  show (match lookupChild children d with
        | some m => walkPath m []
        | none => none) = lookupChild children d
  cases lookupChild children d <;> rfl

/-- The three possible values of `defaultItems`. -/
theorem defaultItems_eq_found {attrs : Attrs} {children : List (String × Node)}
    {d : String} {c : Node}
    (hlk : List.lookup NX_DEFAULT attrs = some (.str d))
    (hgp : getPath (.group attrs children) d = some c) :
    defaultItems attrs children = [(d, c)] := by
  unfold defaultItems
  rw [hlk]
  show (match getPath (.group attrs children) d with
        | some obj => [(d, obj)]
        | none => []) = [(d, c)]
  rw [hgp]

theorem defaultItems_eq_notfound {attrs : Attrs} {children : List (String × Node)}
    {d : String} (hlk : List.lookup NX_DEFAULT attrs = some (.str d))
    (hgp : getPath (.group attrs children) d = none) :
    defaultItems attrs children = [] := by
  unfold defaultItems
  rw [hlk]
  show (match getPath (.group attrs children) d with
        | some obj => [(d, obj)]
        | none => []) = []
  rw [hgp]

theorem defaultItems_sub_children {attrs : Attrs}
    {children : List (String × Node)} (hpd : plainDefault attrs = true)
    {q : String × Node} (hq : q ∈ defaultItems attrs children) : q ∈ children := by
  unfold defaultItems at hq
  split at hq
  · rename_i d hlk
    split at hq
    · rename_i c hgp
      rw [plainDefault_getPath hlk hpd children] at hgp
      have hqe : q = (d, c) := by simpa using hq
      exact hqe ▸ lookup_mem hgp
    · cases hq
  · cases hq

theorem dictInsert_ne_nil (d : List (String × Node)) (k : String) (v : Node) :
    dictInsert d k v ≠ [] := by
  unfold dictInsert
  by_cases hc : (d.map Prod.fst).contains k
  · rw [if_pos hc]
    intro h
    rw [List.map_eq_nil_iff] at h
    subst h
    simp at hc
  · rw [if_neg hc]
    simp

theorem dictUpdateList_ne_nil_left {d : List (String × Node)} (hd : d ≠ [])
    (l : List (String × Node)) : dictUpdateList d l ≠ [] := by
  induction l generalizing d with
  | nil => exact hd
  | cons r rest ih => exact ih (dictInsert_ne_nil d r.1 r.2)

theorem dictUpdateList_ne_nil {l : List (String × Node)} (hl : l ≠ [])
    (d : List (String × Node)) : dictUpdateList d l ≠ [] := by
  obtain ⟨r, rest, rfl⟩ := List.exists_cons_of_ne_nil hl
  show dictUpdateList (dictInsert d r.1 r.2) rest ≠ []
  exact dictUpdateList_ne_nil_left (dictInsert_ne_nil d r.1 r.2) rest

theorem reorder_ne_nil {attrs : Attrs} {children : List (String × Node)}
    (h : children ≠ []) : _reorder_group_items (.group attrs children) ≠ [] := by
  unfold _reorder_group_items
  exact dictUpdateList_ne_nil h _

theorem walkPath_nil_children {attrs : Attrs} (path : String) :
    getPath (.group attrs ([] : List (String × Node))) path = none := by
  unfold getPath
  obtain ⟨c, cs, hc⟩ := List.exists_cons_of_ne_nil (pathComponents_ne_nil path)
  rw [hc]
  rfl

theorem defaultItems_nil_children (attrs : Attrs) :
    defaultItems attrs ([] : List (String × Node)) = [] := by
  unfold defaultItems
  split
  · rename_i d hlk
    rw [walkPath_nil_children d]
  · rfl

theorem reorder_nil_children (attrs : Attrs) :
    _reorder_group_items (.group attrs []) = [] := by
  show dictUpdateList (dictUpdateList (defaultItems attrs []) _) [] = []
  rw [defaultItems_nil_children]
  rfl

theorem mem_reorder_of_mem_children {attrs : Attrs}
    {children : List (String × Node)} (hnd : (children.map Prod.fst).Nodup)
    {p : String × Node} (hp : p ∈ children) :
    p ∈ _reorder_group_items (.group attrs children) := by
  unfold _reorder_group_items
  exact mem_dictUpdateList_right hnd hp _

theorem mem_children_of_mem_reorder {attrs : Attrs}
    {children : List (String × Node)} (hpd : plainDefault attrs = true)
    {q : String × Node} (hq : q ∈ _reorder_group_items (.group attrs children)) :
    q ∈ children := by
  unfold _reorder_group_items at hq
  rcases mem_dictUpdateList hq with h1 | h1
  · rcases mem_dictUpdateList h1 with h2 | h2
    · exact defaultItems_sub_children hpd h2
    · exact List.mem_of_mem_filter h2
  · exact h1

theorem reorder_no_default {attrs : Attrs} {children : List (String × Node)}
    (hnd : (children.map Prod.fst).Nodup)
    (h0 : defaultItems attrs children = []) :
    _reorder_group_items (.group attrs children) =
      children.filter (fun p => isDataset p.2) ++
        children.filter (fun p => !isDataset p.2) := by
  have hndD : ((children.filter (fun p => isDataset p.2)).map Prod.fst).Nodup :=
    hnd.sublist ((List.filter_sublist children).map Prod.fst)
  show dictUpdateList (dictUpdateList (defaultItems attrs children) _) children = _
  rw [h0]
  rw [dictUpdateList_eq hndD (by intro p hp q hq; cases hq)]
  have hD : (children.filter (fun p => isDataset p.2)).filter
      (fun p => !((([] : List (String × Node)).map Prod.fst).contains p.1)) =
      children.filter (fun p => isDataset p.2) := by
    simp
  rw [List.nil_append, hD]
  rw [dictUpdateList_eq hnd
    (fun p hp q hq h1 => nodup_key_eq hnd hp (List.mem_of_mem_filter hq) h1)]
  congr 1
  apply List.filter_congr
  intro p hp
  have hiff := key_mem_filter_iff hnd hp (fun p => isDataset p.2)
  by_cases h : isDataset p.2 = true
  · have hmem : p.1 ∈ (children.filter (fun p => isDataset p.2)).map Prod.fst :=
      hiff.mpr h
    simp [hmem, h]
  · have hmem : p.1 ∉ (children.filter (fun p => isDataset p.2)).map Prod.fst :=
      fun hm => h (hiff.mp hm)
    have hfalse : isDataset p.2 = false := by simpa using h
    simp [hmem, hfalse]

theorem reorder_with_default {attrs : Attrs} {children : List (String × Node)}
    {d : String} {c : Node} (hnd : (children.map Prod.fst).Nodup)
    (h0 : defaultItems attrs children = [(d, c)]) (hdc : (d, c) ∈ children) :
    _reorder_group_items (.group attrs children) =
      (d, c) :: (children.filter (fun p => isDataset p.2 && p.1 != d) ++
        children.filter (fun p => !isDataset p.2 && p.1 != d)) := by
  have hndD : ((children.filter (fun p => isDataset p.2)).map Prod.fst).Nodup :=
    hnd.sublist ((List.filter_sublist children).map Prod.fst)
  show dictUpdateList (dictUpdateList (defaultItems attrs children) _) children = _
  rw [h0]
  rw [dictUpdateList_eq hndD ?hag1]
  case hag1 =>
    intro p hp q hq h1
    have hq' : q = (d, c) := by simpa using hq
    subst hq'
    exact nodup_key_eq hnd (List.mem_of_mem_filter hp) hdc h1
  have hE : (children.filter (fun p => isDataset p.2)).filter
      (fun p => !(([(d, c)].map Prod.fst).contains p.1)) =
      children.filter (fun p => isDataset p.2 && p.1 != d) := by
    rw [List.filter_filter]
    apply List.filter_congr
    intro p hp
    by_cases h : p.1 = d
    · simp [h]
    · simp [h]
  rw [hE]
  rw [List.singleton_append]
  rw [dictUpdateList_eq hnd ?hag2]
  case hag2 =>
    intro p hp q hq h1
    rcases List.mem_cons.mp hq with rfl | hq'
    · exact nodup_key_eq hnd hp hdc h1
    · exact nodup_key_eq hnd hp
        (List.mem_of_mem_filter hq') h1
  rw [List.cons_append]
  congr 1
  congr 1
  apply List.filter_congr
  intro p hp
  have hiff := key_mem_filter_iff hnd hp (fun p => isDataset p.2 && p.1 != d)
  by_cases hpd : p.1 = d
  · -- p is the default entry: excluded from both sides
    have hL : (((d, c) :: children.filter
        (fun p => isDataset p.2 && p.1 != d)).map Prod.fst).contains p.1 = true := by
      simp [hpd]
    have hR : (p.1 != d) = false := by simp [hpd]
    rw [hL, hR, Bool.and_false]
    rfl
  · by_cases h : isDataset p.2 = true
    · have hkey : p.1 ∈ (children.filter
          (fun p => isDataset p.2 && p.1 != d)).map Prod.fst := by
        apply hiff.mpr
        simp [h, hpd]
      have hL : (((d, c) :: children.filter
          (fun p => isDataset p.2 && p.1 != d)).map Prod.fst).contains p.1 = true := by
        simp only [List.map_cons]
        simp [hkey]
      rw [hL, h]
      rfl
    · have hfalse : isDataset p.2 = false := by simpa using h
      have hkey : p.1 ∉ (children.filter
          (fun p => isDataset p.2 && p.1 != d)).map Prod.fst := by
        intro hm
        have := hiff.mp hm
        simp [hfalse] at this
      have hL : (((d, c) :: children.filter
          (fun p => isDataset p.2 && p.1 != d)).map Prod.fst).contains p.1 = false := by
        simp only [List.map_cons]
        simp [hpd, hkey]
      have hR : (p.1 != d) = true := by simp [hpd]
      rw [hL, hfalse, hR]
      rfl

/-- The shape of `specReorderClaim` when the `default` attribute names an
existing child. -/
theorem specReorderClaim_default {attrs : Attrs} {children : List (String × Node)}
    {d : String} {c : Node}
    (hlk : List.lookup NX_DEFAULT attrs = some (.str d))
    (hlc : List.lookup d children = some c) :
    specReorderClaim attrs children =
      (d, c) :: (children.filter (fun p => isDataset p.2 && p.1 != d) ++
        children.filter (fun p => !isDataset p.2 && p.1 != d)) := by
  unfold specReorderClaim
  rw [hlk]
  show (match List.lookup d children with
        | some c =>
          (d, c) :: (children.filter (fun (p : String × Node) => isDataset p.2 && p.1 != d) ++
            children.filter (fun (p : String × Node) => !isDataset p.2 && p.1 != d))
        | none =>
          children.filter (fun (p : String × Node) => isDataset p.2) ++
            children.filter (fun (p : String × Node) => !isDataset p.2)) = _
  rw [hlc]

/-- The shape of `specReorderClaim` when the `default` attribute names no
child. -/
theorem specReorderClaim_ignored {attrs : Attrs} {children : List (String × Node)}
    {d : String}
    (hlk : List.lookup NX_DEFAULT attrs = some (.str d))
    (hlc : List.lookup d children = none) :
    specReorderClaim attrs children =
      children.filter (fun p => isDataset p.2) ++
        children.filter (fun p => !isDataset p.2) := by
  unfold specReorderClaim
  rw [hlk]
  show (match List.lookup d children with
        | some c =>
          (d, c) :: (children.filter (fun (p : String × Node) => isDataset p.2 && p.1 != d) ++
            children.filter (fun (p : String × Node) => !isDataset p.2 && p.1 != d))
        | none =>
          children.filter (fun (p : String × Node) => isDataset p.2) ++
            children.filter (fun (p : String × Node) => !isDataset p.2)) = _
  rw [hlc]

/-- Under the data-model invariants (unique child names, plain-name `default`
attribute) the traversal order computed by `_reorder_group_items` is exactly
the order §4.3 of the specification describes. -/
theorem reorder_eq_spec {attrs : Attrs} {children : List (String × Node)}
    (hnd : (children.map Prod.fst).Nodup) (hpd : plainDefault attrs = true) :
    _reorder_group_items (.group attrs children) = specReorderClaim attrs children := by
  rcases hlk : List.lookup NX_DEFAULT attrs with _ | v
  · rw [show specReorderClaim attrs children = _ by unfold specReorderClaim; rw [hlk]]
    exact reorder_no_default hnd (by unfold defaultItems; rw [hlk])
  · rcases v with d | l | n
    · rcases hgp : getPath (.group attrs children) d with _ | c
      · have hlc : lookupChild children d = none := by
          rw [← plainDefault_getPath hlk hpd children]
          exact hgp
        rw [specReorderClaim_ignored hlk hlc]
        exact reorder_no_default hnd (defaultItems_eq_notfound hlk hgp)
      · have hlc : lookupChild children d = some c := by
          rw [← plainDefault_getPath hlk hpd children]
          exact hgp
        rw [specReorderClaim_default hlk hlc]
        exact reorder_with_default hnd (defaultItems_eq_found hlk hgp)
          (lookup_mem hlc)
    · rw [show specReorderClaim attrs children = _ by unfold specReorderClaim; rw [hlk]]
      exact reorder_no_default hnd (by unfold defaultItems; rw [hlk])
    · rw [show specReorderClaim attrs children = _ by unfold specReorderClaim; rw [hlk]]
      exact reorder_no_default hnd (by unfold defaultItems; rw [hlk])

/-! ## Identity-set lemmas -/

theorem getPath_single {s : String} (hs : pathComponents s = [s])
    (attrs : Attrs) (children : List (String × Node)) :
    getPath (.group attrs children) s = lookupChild children s := by
  unfold getPath
  rw [hs]
  show (match lookupChild children s with
        | some m => walkPath m []
        | none => none) = lookupChild children s
  cases lookupChild children s <;> rfl

/-- Under a well-shaped `definition` entry, the match-name list the code
builds coincides with the amended identity set of the specification. -/
theorem updateNames_eq_amended {name : String} {obj : Node} {axes signal : String}
    (hok : defChildOkLocal obj = true) :
    updateNames name obj axes signal = amendedMatchNames name obj axes signal := by
  cases obj with
  | dataset attrs dd =>
    unfold updateNames amendedMatchNames attrGetD
    simp only [nodeAttrs]
    cases hc : List.lookup NXCLASS attrs <;>
      cases hl : List.lookup LOCAL_NAME attrs <;>
        simp [bytes2str]
  | group attrs children =>
    have hpc : pathComponents NX_DEFINITION = [NX_DEFINITION] := by rfl
    have hdef : getPath (.group attrs children) NX_DEFINITION =
        lookupChild children NX_DEFINITION := getPath_single hpc attrs children
    simp only [defChildOkLocal] at hok
    rw [hdef] at hok
    unfold updateNames amendedMatchNames attrGetD
    simp only [nodeAttrs]
    rw [hdef]
    unfold lookupChild at hok ⊢
    cases hd : List.lookup NX_DEFINITION children with
    | none =>
      cases hc : List.lookup NXCLASS attrs <;>
        cases hl : List.lookup LOCAL_NAME attrs <;>
          simp [bytes2str]
    | some dn =>
      rw [hd] at hok
      cases dn with
      | group a2 c2 => simp at hok
      | dataset a2 d2 =>
        cases d2 with
        | num t f sh da => simp at hok
        | str sh da =>
          cases hc : List.lookup NXCLASS attrs <;>
            cases hl : List.lookup LOCAL_NAME attrs <;>
              simp [bytes2str, nodeValueStr]

/-- Under a well-shaped `definition` entry, the token consumption of
`_update_args` is the one the specification words describe. -/
theorem update_args_eq_specConsume {name : String} {obj : Node}
    {axes signal : String} (hok : defChildOkLocal obj = true)
    (args : List String) :
    _update_args name obj axes signal args = specConsume name obj axes signal args := by
  cases args with
  | nil => rfl
  | cons a rest =>
    unfold _update_args specConsume
    rw [updateNames_eq_amended hok]

/-! ## Loop lemmas -/

theorem matchLoop_cons (fm : Node → List String → List Node)
    (consume : String → Node → List String) (name : String) (obj : Node)
    (rest : List (String × Node)) :
    matchLoop fm consume ((name, obj) :: rest) =
      (if (consume name obj).isEmpty then [obj]
       else match obj with
            | .group _ _ => fm obj (consume name obj)
            | .dataset _ _ => []) ++ matchLoop fm consume rest := rfl

theorem findLoop_cons (f : Node → List String → Option Node)
    (consume : String → Node → List String) (name : String) (obj : Node)
    (rest : List (String × Node)) :
    findLoop f consume ((name, obj) :: rest) =
      (if (consume name obj).isEmpty then some obj
       else match obj with
            | .group _ _ =>
              (match f obj (consume name obj) with
               | some r => some r
               | none => findLoop f consume rest)
            | .dataset _ _ => findLoop f consume rest) := rfl

theorem findLoopExc_cons (f : Node → List String → Except Unit (Option Node))
    (consumeE : String → Node → Except Unit (List String)) (name : String)
    (obj : Node) (rest : List (String × Node)) :
    findLoopExc f consumeE ((name, obj) :: rest) =
      (match consumeE name obj with
       | .error e => .error e
       | .ok newArgs =>
         if newArgs.isEmpty then .ok (some obj)
         else match obj with
              | .group _ _ =>
                match f obj newArgs with
                | .error e => .error e
                | .ok (some r) => .ok (some r)
                | .ok none => findLoopExc f consumeE rest
              | .dataset _ _ => findLoopExc f consumeE rest) := rfl

theorem nxFindF_succ (fuel : Nat) (g : Node) (args : List String) :
    nxFindF (fuel + 1) g args =
      match fastPath g args with
      | some obj => some obj
      | none =>
        findLoop (nxFindF fuel)
          (fun name obj => _update_args name obj
            (bytes2str (attrGetD (nodeAttrs g) NX_AXES))
            (bytes2str (attrGetD (nodeAttrs g) NX_SIGNAL)) args)
          (_reorder_group_items g) := rfl

theorem nxFindAllF_succ (fuel : Nat) (g : Node) (args : List String) :
    nxFindAllF (fuel + 1) g args =
      (fastPath g args).toList ++
        matchLoop (nxFindAllF fuel)
          (fun name obj => _update_args name obj
            (bytes2str (attrGetD (nodeAttrs g) NX_AXES))
            (bytes2str (attrGetD (nodeAttrs g) NX_SIGNAL)) args)
          (childrenOf g) := rfl

theorem specMatchesF_succ (fp : Bool) (fuel : Nat) (g : Node) (args : List String) :
    specMatchesF fp (fuel + 1) g args =
      (if fp then (fastPath g args).toList else []) ++
        matchLoop (specMatchesF fp fuel)
          (fun name obj => specConsume name obj
            (bytes2str (attrGetD (nodeAttrs g) NX_AXES))
            (bytes2str (attrGetD (nodeAttrs g) NX_SIGNAL)) args)
          (specReorderNode g) := rfl

theorem nxFindExcF_succ (fuel : Nat) (g : Node) (args : List String) :
    nxFindExcF (fuel + 1) g args =
      match fastPath g args with
      | some obj => .ok (some obj)
      | none =>
        findLoopExc (nxFindExcF fuel)
          (fun name obj => updateArgsExc name obj
            (bytes2str (attrGetD (nodeAttrs g) NX_AXES))
            (bytes2str (attrGetD (nodeAttrs g) NX_SIGNAL)) args)
          (_reorder_group_items g) := rfl

theorem matchLoop_congr {fm : Node → List String → List Node}
    (consume consume' : String → Node → List String) {l : List (String × Node)}
    (h : ∀ p ∈ l, consume p.1 p.2 = consume' p.1 p.2) :
    matchLoop fm consume l = matchLoop fm consume' l := by
  induction l with
  | nil => rfl
  | cons q rest ih =>
    obtain ⟨name, obj⟩ := q
    have hq := h (name, obj) (List.mem_cons_self _ _)
    have h' : ∀ p ∈ rest, consume p.1 p.2 = consume' p.1 p.2 :=
      fun p hp => h p (List.mem_cons_of_mem _ hp)
    rw [matchLoop_cons, matchLoop_cons, hq, ih h']

theorem findLoop_eq_head {f : Node → List String → Option Node}
    {fm : Node → List String → List Node}
    {consume : String → Node → List String} {l : List (String × Node)}
    (hf : ∀ p ∈ l, ∀ as, f p.2 as = (fm p.2 as).head?) :
    findLoop f consume l = (matchLoop fm consume l).head? := by
  induction l with
  | nil => rfl
  | cons q rest ih =>
    obtain ⟨name, obj⟩ := q
    have hobj := hf (name, obj) (List.mem_cons_self _ _)
    have hf' : ∀ p ∈ rest, ∀ as, f p.2 as = (fm p.2 as).head? :=
      fun p hp => hf p (List.mem_cons_of_mem _ hp)
    rw [findLoop_cons, matchLoop_cons]
    by_cases hne : (consume name obj).isEmpty
    · rw [if_pos hne, if_pos hne]
      rfl
    · rw [if_neg hne, if_neg hne]
      cases obj with
      | dataset a d =>
        rw [List.nil_append]
        exact ih hf'
      | group a c =>
        rw [hobj (consume name (.group a c))]
        cases hfm : fm (.group a c) (consume name (.group a c)) with
        | nil =>
          rw [List.nil_append]
          exact ih hf'
        | cons hd tl => rfl

theorem findLoop_some {f : Node → List String → Option Node}
    {consume : String → Node → List String} {l : List (String × Node)} {n : Node}
    (h : findLoop f consume l = some n) :
    ∃ p ∈ l, (consume p.1 p.2 = [] ∧ p.2 = n) ∨
      (consume p.1 p.2 ≠ [] ∧ isGroup p.2 = true ∧
        f p.2 (consume p.1 p.2) = some n) := by
  induction l with
  | nil => cases h
  | cons q rest ih =>
    obtain ⟨name, obj⟩ := q
    rw [findLoop_cons] at h
    by_cases hne : (consume name obj).isEmpty
    · rw [if_pos hne] at h
      refine ⟨(name, obj), List.mem_cons_self _ _,
        Or.inl ⟨List.isEmpty_iff.mp hne, ?_⟩⟩
      exact Option.some.inj h
    · rw [if_neg hne] at h
      cases obj with
      | dataset a d =>
        obtain ⟨p, hp, hcase⟩ := ih h
        exact ⟨p, List.mem_cons_of_mem _ hp, hcase⟩
      | group a c =>
        cases hfr : f (.group a c) (consume name (.group a c)) with
        | some r =>
          rw [hfr] at h
          refine ⟨(name, .group a c), List.mem_cons_self _ _,
            Or.inr ⟨?_, rfl, ?_⟩⟩
          · intro hc
            exact hne (by rw [hc]; rfl)
          · rw [hfr]
            exact congrArg some (Option.some.inj h)
        | none =>
          rw [hfr] at h
          obtain ⟨p, hp, hcase⟩ := ih h
          exact ⟨p, List.mem_cons_of_mem _ hp, hcase⟩

theorem mem_matchLoop {fm : Node → List String → List Node}
    {consume : String → Node → List String} {l : List (String × Node)}
    {p : String × Node} (hp : p ∈ l) {n : Node}
    (h : (consume p.1 p.2 = [] ∧ p.2 = n) ∨
      (consume p.1 p.2 ≠ [] ∧ isGroup p.2 = true ∧
        n ∈ fm p.2 (consume p.1 p.2))) :
    n ∈ matchLoop fm consume l := by
  induction l with
  | nil => cases hp
  | cons q rest ih =>
    obtain ⟨name, obj⟩ := q
    rw [matchLoop_cons]
    rcases List.mem_cons.mp hp with rfl | hp'
    · rcases h with ⟨hc, rfl⟩ | ⟨hne, hg, hmem⟩
      · rw [if_pos (by rw [hc]; rfl)]
        exact List.mem_append_left _ (List.mem_singleton.mpr rfl)
      · rw [if_neg (fun he => hne (List.isEmpty_iff.mp he))]
        cases obj with
        | dataset a d => cases hg
        | group a c => exact List.mem_append_left _ hmem
    · exact List.mem_append_right _ (ih hp')

theorem matchLoop_eq_nil_forall {fm : Node → List String → List Node}
    {consume : String → Node → List String} {l : List (String × Node)}
    (h : matchLoop fm consume l = []) :
    ∀ p ∈ l, consume p.1 p.2 ≠ [] ∧
      (isGroup p.2 = true → fm p.2 (consume p.1 p.2) = []) := by
  induction l with
  | nil => intro p hp; cases hp
  | cons q rest ih =>
    obtain ⟨name, obj⟩ := q
    rw [matchLoop_cons, List.append_eq_nil] at h
    obtain ⟨h1, h2⟩ := h
    intro p hp
    rcases List.mem_cons.mp hp with rfl | hp'
    · by_cases hne : (consume name obj).isEmpty
      · rw [if_pos hne] at h1
        cases h1
      · rw [if_neg hne] at h1
        refine ⟨fun hc => hne (by rw [hc]; rfl), fun hg => ?_⟩
        cases obj with
        | dataset a d => cases hg
        | group a c => exact h1
    · exact ih h2 p hp'

theorem matchLoop_nil_of_forall {fm : Node → List String → List Node}
    {consume : String → Node → List String} {l : List (String × Node)}
    (h : ∀ p ∈ l, consume p.1 p.2 ≠ [] ∧
      (isGroup p.2 = true → fm p.2 (consume p.1 p.2) = [])) :
    matchLoop fm consume l = [] := by
  induction l with
  | nil => rfl
  | cons q rest ih =>
    obtain ⟨name, obj⟩ := q
    obtain ⟨hne, hrec⟩ := h (name, obj) (List.mem_cons_self _ _)
    rw [matchLoop_cons]
    rw [if_neg (fun he => hne (List.isEmpty_iff.mp he))]
    rw [ih (fun p hp => h p (List.mem_cons_of_mem _ hp))]
    cases obj with
    | dataset a d => rfl
    | group a c => rw [hrec rfl, List.nil_append]

theorem findLoopExc_cons_ok {f : Node → List String → Except Unit (Option Node)}
    {consumeE : String → Node → Except Unit (List String)} {name : String}
    {obj : Node} {newArgs : List String} (rest : List (String × Node))
    (hok : consumeE name obj = .ok newArgs) :
    findLoopExc f consumeE ((name, obj) :: rest) =
      (if newArgs.isEmpty then .ok (some obj)
       else match obj with
            | .group _ _ =>
              match f obj newArgs with
              | .error e => .error e
              | .ok (some r) => .ok (some r)
              | .ok none => findLoopExc f consumeE rest
            | .dataset _ _ => findLoopExc f consumeE rest) := by
  rw [findLoopExc_cons, hok]
  cases obj with
  | dataset a d => by_cases hne : newArgs.isEmpty <;> simp [hne]
  | group a c => by_cases hne : newArgs.isEmpty <;> simp [hne]

theorem findLoopExc_cons_err {f : Node → List String → Except Unit (Option Node)}
    {consumeE : String → Node → Except Unit (List String)} {name : String}
    {obj : Node} {e : Unit} (rest : List (String × Node))
    (herr : consumeE name obj = .error e) :
    findLoopExc f consumeE ((name, obj) :: rest) = .error e := by
  rw [findLoopExc_cons, herr]

theorem findLoopExc_eq {f : Node → List String → Except Unit (Option Node)}
    {f0 : Node → List String → Option Node}
    {consumeE : String → Node → Except Unit (List String)}
    {consume : String → Node → List String} {l : List (String × Node)}
    (hc : ∀ p ∈ l, consumeE p.1 p.2 = .ok (consume p.1 p.2))
    (hf : ∀ p ∈ l, ∀ as, as ≠ [] → f p.2 as = .ok (f0 p.2 as)) :
    findLoopExc f consumeE l = .ok (findLoop f0 consume l) := by
  induction l with
  | nil => rfl
  | cons q rest ih =>
    obtain ⟨name, obj⟩ := q
    have hcq : consumeE name obj = .ok (consume name obj) :=
      hc (name, obj) (List.mem_cons_self _ _)
    have hfq : ∀ as, as ≠ [] → f obj as = .ok (f0 obj as) :=
      hf (name, obj) (List.mem_cons_self _ _)
    have hc' : ∀ p ∈ rest, consumeE p.1 p.2 = .ok (consume p.1 p.2) :=
      fun p hp => hc p (List.mem_cons_of_mem _ hp)
    have hf' : ∀ p ∈ rest, ∀ as, as ≠ [] → f p.2 as = .ok (f0 p.2 as) :=
      fun p hp => hf p (List.mem_cons_of_mem _ hp)
    rw [findLoopExc_cons_ok rest hcq, findLoop_cons]
    by_cases hne : (consume name obj).isEmpty
    · rw [if_pos hne, if_pos hne]
    · rw [if_neg hne, if_neg hne]
      cases obj with
      | dataset a d => exact ih hc' hf'
      | group a c =>
        rw [hfq (consume name (.group a c))
          (fun hnil => hne (by rw [hnil]; rfl))]
        cases f0 (.group a c) (consume name (.group a c)) with
        | some r => rfl
        | none => exact ih hc' hf'

/-! ## Wellformedness extraction -/

theorem uniqNamesF_local {fuel : Nat} {n : Node} (h : uniqNamesF fuel n = true) :
    localUniq n = true := by
  cases fuel with
  | zero => exact h
  | succ f =>
    rw [uniqNamesF, Bool.and_eq_true] at h
    exact h.1

theorem uniqNamesF_child {fuel : Nat} {n : Node} (h : uniqNamesF (fuel + 1) n = true)
    {p : String × Node} (hp : p ∈ childrenOf n) : uniqNamesF fuel p.2 = true := by
  rw [uniqNamesF, Bool.and_eq_true] at h
  exact listAllNodes_forall h.2 p hp

theorem goodDefaultsF_local {fuel : Nat} {n : Node}
    (h : goodDefaultsF fuel n = true) : localGoodDefault n = true := by
  cases fuel with
  | zero => exact h
  | succ f =>
    rw [goodDefaultsF, Bool.and_eq_true] at h
    exact h.1

theorem goodDefaultsF_child {fuel : Nat} {n : Node}
    (h : goodDefaultsF (fuel + 1) n = true) {p : String × Node}
    (hp : p ∈ childrenOf n) : goodDefaultsF fuel p.2 = true := by
  rw [goodDefaultsF, Bool.and_eq_true] at h
  exact listAllNodes_forall h.2 p hp

theorem defChildrenOkF_local {fuel : Nat} {n : Node}
    (h : defChildrenOkF fuel n = true) : defChildOkLocal n = true := by
  cases fuel with
  | zero => exact h
  | succ f =>
    rw [defChildrenOkF, Bool.and_eq_true] at h
    exact h.1

theorem defChildrenOkF_child {fuel : Nat} {n : Node}
    (h : defChildrenOkF (fuel + 1) n = true) {p : String × Node}
    (hp : p ∈ childrenOf n) : defChildrenOkF fuel p.2 = true := by
  rw [defChildrenOkF, Bool.and_eq_true] at h
  exact listAllNodes_forall h.2 p hp

theorem mem_specReorder_of_mem_children {attrs : Attrs}
    {children : List (String × Node)} (hnd : (children.map Prod.fst).Nodup)
    {p : String × Node} (hp : p ∈ children) :
    p ∈ specReorderClaim attrs children := by
  have hsplit : p ∈ children.filter (fun q => isDataset q.2) ++
      children.filter (fun q => !isDataset q.2) := by
    rcases hds : isDataset p.2 with _ | _
    · exact List.mem_append_right _ (List.mem_filter.mpr ⟨hp, by rw [hds]; rfl⟩)
    · exact List.mem_append_left _ (List.mem_filter.mpr ⟨hp, hds⟩)
  rcases hlk : List.lookup NX_DEFAULT attrs with _ | v
  · rw [show specReorderClaim attrs children = _ by
      unfold specReorderClaim; rw [hlk]]
    exact hsplit
  · rcases v with d | l | nv
    · rcases hlc : List.lookup d children with _ | c
      · rw [specReorderClaim_ignored hlk hlc]
        exact hsplit
      · rw [specReorderClaim_default hlk hlc]
        by_cases hpd : p.1 = d
        · have hv : p.2 = c := by
            have h1 := mem_lookup_nodup hnd hp
            rw [hpd, hlc] at h1
            exact (Option.some.inj h1).symm
          have : p = (d, c) := Prod.ext hpd hv
          rw [this]
          exact List.mem_cons_self _ _
        · apply List.mem_cons_of_mem
          rcases hds : isDataset p.2 with _ | _
          · refine List.mem_append_right _ (List.mem_filter.mpr ⟨hp, ?_⟩)
            rw [hds]
            simpa using hpd
          · refine List.mem_append_left _ (List.mem_filter.mpr ⟨hp, ?_⟩)
            rw [hds]
            simpa using hpd
    · rw [show specReorderClaim attrs children = _ by
        unfold specReorderClaim; rw [hlk]]
      exact hsplit
    · rw [show specReorderClaim attrs children = _ by
        unfold specReorderClaim; rw [hlk]]
      exact hsplit

/-! ## Main fuel inductions -/

/-- `nx_find`'s recursion computes the head of the specification's ordered
match enumeration (fast-path matches included), on trees satisfying the
data-model invariants. -/
theorem findF_eq_specHead :
    ∀ (fuel : Nat) (g : Node) (args : List String),
      uniqNamesF fuel g = true → goodDefaultsF fuel g = true →
      defChildrenOkF fuel g = true →
      nxFindF fuel g args = (specMatchesF true fuel g args).head? := by
  intro fuel
  induction fuel with
  | zero => intro g args _ _ _; rfl
  | succ fuel ih =>
    intro g args hu hg hd
    rw [nxFindF_succ, specMatchesF_succ]
    cases hfp : fastPath g args with
    | some n => rfl
    | none =>
      cases g with
      | dataset attrs dd => rfl
      | group attrs children =>
        have hnd : (children.map Prod.fst).Nodup :=
          of_decide_eq_true (uniqNamesF_local hu)
        have hpd : plainDefault attrs = true := goodDefaultsF_local hg
        have hmemc : ∀ p ∈ _reorder_group_items (.group attrs children),
            p ∈ children := fun p hp => mem_children_of_mem_reorder hpd hp
        have hro : specReorderNode (.group attrs children) =
            _reorder_group_items (.group attrs children) :=
          (reorder_eq_spec hnd hpd).symm
        rw [hro]
        have hcons : ∀ p ∈ _reorder_group_items (.group attrs children),
            specConsume p.1 p.2
              (bytes2str (attrGetD (nodeAttrs (Node.group attrs children)) NX_AXES))
              (bytes2str (attrGetD (nodeAttrs (Node.group attrs children)) NX_SIGNAL))
              args =
            _update_args p.1 p.2
              (bytes2str (attrGetD (nodeAttrs (Node.group attrs children)) NX_AXES))
              (bytes2str (attrGetD (nodeAttrs (Node.group attrs children)) NX_SIGNAL))
              args := by
          intro p hp
          exact (update_args_eq_specConsume
            (defChildrenOkF_local (defChildrenOkF_child hd (hmemc p hp))) args).symm
        rw [matchLoop_congr
          (fun name obj => specConsume name obj
            (bytes2str (attrGetD (nodeAttrs (Node.group attrs children)) NX_AXES))
            (bytes2str (attrGetD (nodeAttrs (Node.group attrs children)) NX_SIGNAL)) args)
          (fun name obj => _update_args name obj
            (bytes2str (attrGetD (nodeAttrs (Node.group attrs children)) NX_AXES))
            (bytes2str (attrGetD (nodeAttrs (Node.group attrs children)) NX_SIGNAL)) args)
          hcons]
        apply findLoop_eq_head
        intro p hp as
        exact ih p.2 as (uniqNamesF_child hu (hmemc p hp))
          (goodDefaultsF_child hg (hmemc p hp))
          (defChildrenOkF_child hd (hmemc p hp))

/-- Every node found by `nx_find`'s recursion is collected by `nx_find_all`'s
recursion, provided `default` attributes are plain names. -/
theorem findF_mem_findAllF :
    ∀ (fuel : Nat) (g : Node) (args : List String) (n : Node),
      goodDefaultsF fuel g = true →
      nxFindF fuel g args = some n → n ∈ nxFindAllF fuel g args := by
  intro fuel
  induction fuel with
  | zero => intro g args n _ h; cases h
  | succ fuel ih =>
    intro g args n hg h
    rw [nxFindF_succ] at h
    rw [nxFindAllF_succ]
    cases hfp : fastPath g args with
    | some m =>
      rw [hfp] at h
      have h2 : some m = some n := h
      exact List.mem_append_left _
        (List.mem_singleton.mpr (Option.some.inj h2).symm)
    | none =>
      rw [hfp] at h
      have h' : findLoop (nxFindF fuel)
          (fun name obj => _update_args name obj
            (bytes2str (attrGetD (nodeAttrs g) NX_AXES))
            (bytes2str (attrGetD (nodeAttrs g) NX_SIGNAL)) args)
          (_reorder_group_items g) = some n := h
      obtain ⟨p, hp, hcase⟩ := findLoop_some h'
      cases g with
      | dataset attrs dd =>
        rw [show _reorder_group_items (.dataset attrs dd) = [] from rfl] at hp
        cases hp
      | group attrs children =>
        have hpd : plainDefault attrs = true := goodDefaultsF_local hg
        have hpc : p ∈ children := mem_children_of_mem_reorder hpd hp
        apply List.mem_append_right
        refine mem_matchLoop hpc ?_
        rcases hcase with ⟨hc, he⟩ | ⟨hne, hgr, hf2⟩
        · exact Or.inl ⟨hc, he⟩
        · exact Or.inr ⟨hne, hgr,
            ih p.2 _ n (goodDefaultsF_child hg hpc) hf2⟩

/-- When the specification's enumeration is empty, `nx_find_all` collects
nothing, on trees with unique names and well-shaped `definition` entries. -/
theorem findAllF_nil_of_spec_nil :
    ∀ (fuel : Nat) (g : Node) (args : List String),
      uniqNamesF fuel g = true → defChildrenOkF fuel g = true →
      specMatchesF true fuel g args = [] → nxFindAllF fuel g args = [] := by
  intro fuel
  induction fuel with
  | zero => intro g args _ _ _; rfl
  | succ fuel ih =>
    intro g args hu hd hs
    rw [specMatchesF_succ] at hs
    rw [nxFindAllF_succ]
    rw [List.append_eq_nil] at hs
    obtain ⟨hs1, hs2⟩ := hs
    have hfp : (fastPath g args).toList = [] := by simpa using hs1
    rw [hfp, List.nil_append]
    apply matchLoop_nil_of_forall
    intro p hp
    cases g with
    | dataset attrs dd =>
      rw [show childrenOf (.dataset attrs dd) = [] from rfl] at hp
      cases hp
    | group attrs children =>
      have hnd : (children.map Prod.fst).Nodup :=
        of_decide_eq_true (uniqNamesF_local hu)
      have hps : p ∈ specReorderNode (.group attrs children) :=
        mem_specReorder_of_mem_children hnd hp
      have hspec := matchLoop_eq_nil_forall hs2 p hps
      have hok : defChildOkLocal p.2 = true :=
        defChildrenOkF_local (defChildrenOkF_child hd hp)
      refine ⟨?_, ?_⟩
      · rw [update_args_eq_specConsume hok args]
        exact hspec.1
      · intro hgr
        rw [update_args_eq_specConsume hok args]
        exact ih p.2 _ (uniqNamesF_child hu hp) (defChildrenOkF_child hd hp)
          (hspec.2 hgr)

/-! ## Exception behaviour -/

/-- On a non-empty token list the exception-aware search agrees with the
total model: `nx_find` raises nothing when at least one token is supplied. -/
theorem findExcF_ok :
    ∀ (fuel : Nat) (g : Node) (args : List String), args ≠ [] →
      nxFindExcF fuel g args = .ok (nxFindF fuel g args) := by
  intro fuel
  induction fuel with
  | zero => intro g args _; rfl
  | succ fuel ih =>
    intro g args hne
    rw [nxFindExcF_succ, nxFindF_succ]
    cases hfp : fastPath g args with
    | some m => rfl
    | none =>
      refine findLoopExc_eq ?_ ?_
      · intro p hp
        obtain ⟨a, rest, rfl⟩ := List.exists_cons_of_ne_nil hne
        rfl
      · intro p hp as hasne
        exact ih p.2 as hasne

theorem findExcF_empty_args_succ (fuel : Nat) (attrs : Attrs)
    {children : List (String × Node)} (h : children ≠ []) :
    nxFindExcF (fuel + 1) (.group attrs children) [] = .error () := by
  rw [nxFindExcF_succ]
  rw [show fastPath (.group attrs children) ([] : List String) = none from rfl]
  obtain ⟨q, qs, hq⟩ := List.exists_cons_of_ne_nil (reorder_ne_nil h)
  rw [hq]
  obtain ⟨qn, qo⟩ := q
  exact findLoopExc_cons_err qs rfl

/-! ## Permutation of the claim order -/

theorem perm_cons_filter_ne {children : List (String × Node)}
    (hnd : (children.map Prod.fst).Nodup) {d : String} {c : Node}
    (hdc : (d, c) ∈ children) :
    List.Perm children ((d, c) :: children.filter (fun p => p.1 != d)) := by
  induction children with
  | nil => cases hdc
  | cons q rest ih =>
    simp only [List.map_cons, List.nodup_cons] at hnd
    obtain ⟨hq, hnd'⟩ := hnd
    by_cases hqd : q.1 = d
    · have hqc : q = (d, c) := by
        rcases List.mem_cons.mp hdc with h | h
        · exact h.symm
        · exfalso
          rw [hqd] at hq
          exact hq (List.mem_map_of_mem Prod.fst h)
      subst hqc
      have hrest : rest.filter (fun p => p.1 != d) = rest := by
        apply List.filter_eq_self.mpr
        intro p hp
        have hne : p.1 ≠ d := by
          intro h2
          rw [hqd] at hq
          exact hq (h2 ▸ List.mem_map_of_mem Prod.fst hp)
        simpa using hne
      rw [List.filter_cons_of_neg (by simp)]
      rw [hrest]
    · have hdr : (d, c) ∈ rest := by
        rcases List.mem_cons.mp hdc with h | h
        · exact absurd (by rw [← h]) hqd
        · exact h
      rw [List.filter_cons_of_pos (by simpa using hqd)]
      exact ((ih hnd' hdr).cons q).trans (List.Perm.swap (d, c) q _)

theorem specReorderClaim_perm {attrs : Attrs} {children : List (String × Node)}
    (hnd : (children.map Prod.fst).Nodup) :
    List.Perm (specReorderClaim attrs children) children := by
  have hbase : List.Perm (children.filter (fun p => isDataset p.2) ++
      children.filter (fun p => !isDataset p.2)) children :=
    List.filter_append_perm _ children
  rcases hlk : List.lookup NX_DEFAULT attrs with _ | v
  · rw [show specReorderClaim attrs children = _ by
      unfold specReorderClaim; rw [hlk]]
    exact hbase
  · rcases v with d | l | nv
    · rcases hlc : List.lookup d children with _ | c
      · rw [specReorderClaim_ignored hlk hlc]
        exact hbase
      · rw [specReorderClaim_default hlk hlc]
        have hdc : (d, c) ∈ children := lookup_mem hlc
        have hds : children.filter (fun p => isDataset p.2 && p.1 != d) =
            (children.filter (fun p => p.1 != d)).filter (fun p => isDataset p.2) := by
          rw [List.filter_filter]
        have hot : children.filter (fun p => !isDataset p.2 && p.1 != d) =
            (children.filter (fun p => p.1 != d)).filter (fun p => !isDataset p.2) := by
          rw [List.filter_filter]
        rw [hds, hot]
        refine List.Perm.trans ?_ (perm_cons_filter_ne hnd hdc).symm
        exact (List.filter_append_perm _ _).cons (d, c)
    · rw [show specReorderClaim attrs children = _ by
        unfold specReorderClaim; rw [hlk]]
      exact hbase
    · rw [show specReorderClaim attrs children = _ by
        unfold specReorderClaim; rw [hlk]]
      exact hbase

/-! ## Claim theorems -/

/-- Claim C1, counterexample: `nx_find` does not return the first node of the
pure priority enumeration the claim describes.  On `fastTree` the priority
order visits the `default` child `B` first, whose nested dataset `B/A`
consumes the token `A`; the code instead returns the root's direct child `A`
through the `args[0] in group` fast path. -/
theorem nx_find_not_pure_priority_first :
    ¬ (nx_find fastTree ["A"] = (specMatchesPure fastTree ["A"]).head?) := by
  intro h
  have h2 : Option.map nodeTag (nx_find fastTree ["A"]) =
      Option.map nodeTag ((specMatchesPure fastTree ["A"]).head?) :=
    congrArg (Option.map nodeTag) h
  rw [show Option.map nodeTag (nx_find fastTree ["A"]) = some "top" from rfl,
    show Option.map nodeTag ((specMatchesPure fastTree ["A"]).head?) =
      some "deep" from rfl] at h2
  exact absurd h2 (by decide)

/-- Claim C1, amended: for every tree satisfying the data-model invariants
(unique child names, plain-name `default` attributes, and well-shaped
`definition` entries) and every non-empty token sequence, `nx_find` returns
the first node of the priority-order enumeration of hierarchical matches,
where at every visited group a match of the remaining single token as a
direct slash-path is listed (and hence returned) ahead of the priority
traversal. -/
theorem nx_find_first_of_spec_enumeration (g : Node) (args : List String)
    (_hargs : args ≠ []) (hu : uniqNames g = true) (hgd : goodDefaults g = true)
    (hdo : defChildrenOk g = true) :
    nx_find g args = (specMatches g args).head? :=
  findF_eq_specHead (nodeSize g) g args hu hgd hdo

theorem nx_find_first_of_spec_enumeration_witness :
    nx_find entryTree ["NXentry"] = (specMatches entryTree ["NXentry"]).head? :=
  nx_find_first_of_spec_enumeration entryTree ["NXentry"] (by decide) rfl rfl rfl

/-- Claim C2, counterexample: a `default` attribute holding the slash path
`a/b` resolves to a grandchild with h5py path semantics, so the reordered
items are not a permutation of the group's `(name, child)` pairs: the extra
entry is keyed by the path `a/b`, which is no child name. -/
theorem reorder_not_perm_on_slash_default :
    ¬ List.Perm (_reorder_group_items slashTree) (childrenOf slashTree) := by
  intro h
  have hlen := h.length_eq
  rw [show (_reorder_group_items slashTree).length = 2 from rfl,
    show (childrenOf slashTree).length = 1 from rfl] at hlen
  exact absurd hlen (by decide)

/-- Claim C2, amended: for a group with unique child names whose `default`
attribute (when present) is a plain name — no slash path — the reorder is
exactly the claim's order (`default` child first when it names an existing
child, then the datasets, then the rest, a dangling `default` ignored), and
it is a duplicate-free permutation of the group's `(name, child)` pairs. -/
theorem reorder_claim_order_amended (attrs : Attrs)
    (children : List (String × Node))
    (hnd : (children.map Prod.fst).Nodup) (hpd : plainDefault attrs = true) :
    _reorder_group_items (.group attrs children) = specReorderClaim attrs children ∧
    List.Perm (_reorder_group_items (.group attrs children)) children ∧
    ((_reorder_group_items (.group attrs children)).map Prod.fst).Nodup := by
  have heq := reorder_eq_spec hnd hpd
  have hperm : List.Perm (_reorder_group_items (.group attrs children)) children := by
    rw [heq]
    exact specReorderClaim_perm hnd
  exact ⟨heq, hperm, (hperm.map Prod.fst).nodup_iff.mpr hnd⟩

theorem reorder_claim_order_amended_witness :
    _reorder_group_items (.group [(NX_DEFAULT, .str "B")]
        [("A", dsTop), ("B", .group [] [("A", dsDeep)])]) =
      specReorderClaim [(NX_DEFAULT, .str "B")]
        [("A", dsTop), ("B", .group [] [("A", dsDeep)])] ∧
    List.Perm (_reorder_group_items (.group [(NX_DEFAULT, .str "B")]
        [("A", dsTop), ("B", .group [] [("A", dsDeep)])]))
      [("A", dsTop), ("B", .group [] [("A", dsDeep)])] ∧
    ((_reorder_group_items (.group [(NX_DEFAULT, .str "B")]
        [("A", dsTop), ("B", .group [] [("A", dsDeep)])])).map Prod.fst).Nodup :=
  reorder_claim_order_amended [(NX_DEFAULT, .str "B")]
    [("A", dsTop), ("B", .group [] [("A", dsDeep)])] (by decide) rfl

/-- Claim C3, counterexample: at a dataset without attributes the code
consumes the empty-string token, although the empty string is not in the
identity set the claim describes (`attrs.get(attr, '')` contributes `''` for
each missing search attribute). -/
theorem identity_set_empty_string_counterexample :
    _update_args "data" plainDs "" "" [""] = [] ∧
    "" ∉ claimMatchNames "data" plainDs "" "" :=
  ⟨rfl, by decide⟩

/-- Claim C3, amended: with the identity set enlarged by the empty string for
each missing class-marker or alternate-identity attribute, `_update_args`
consumes the first token exactly when it belongs to the set (for nodes whose
`definition` entry, if any, is a string dataset); and on a group with
`signal='intensity'` and child dataset `intensity`, `nx_find` on the token
`signal` returns that dataset. -/
theorem update_args_amended_identity_set :
    (∀ (name : String) (obj : Node) (axes signal t : String)
       (rest : List String), defChildOkLocal obj = true →
      (_update_args name obj axes signal (t :: rest) = rest ↔
        t ∈ amendedMatchNames name obj axes signal)) ∧
    nx_find sigTree ["signal"] = some sigDs := by
  refine ⟨?_, rfl⟩
  intro name obj axes signal t rest hok
  unfold _update_args
  rw [updateNames_eq_amended hok]
  show (if t ∈ amendedMatchNames name obj axes signal then rest
        else t :: rest) = rest ↔ t ∈ amendedMatchNames name obj axes signal
  by_cases hmem : t ∈ amendedMatchNames name obj axes signal
  · rw [if_pos hmem]
    exact ⟨fun _ => hmem, fun _ => rfl⟩
  · rw [if_neg hmem]
    constructor
    · intro hcontra
      exact absurd hcontra (List.cons_ne_self t rest)
    · intro hc
      exact absurd hc hmem

theorem update_args_amended_identity_set_witness :
    defChildOkLocal sigDs = true ∧
    (_update_args "intensity" sigDs "" "intensity" ["signal"] = [] ↔
      "signal" ∈ amendedMatchNames "intensity" sigDs "" "intensity") :=
  ⟨rfl, update_args_amended_identity_set.1 "intensity" sigDs "" "intensity"
    "signal" [] rfl⟩

/-- Claim C4, counterexample: on `axesSlashTree` (slash-path `default` that
doubles as the `axes` pointer) `nx_find` returns the grandchild — the token
`axes` is consumed at the dictionary entry keyed `a/b` — while `nx_find_all`,
which walks the natural child order, returns the empty list. -/
theorem find_not_in_find_all_on_slash_default :
    ¬ (∀ n : Node, nx_find axesSlashTree ["axes"] = some n →
        n ∈ nx_find_all axesSlashTree ["axes"]) := by
  intro h
  have hm := h dsSlash rfl
  rw [show nx_find_all axesSlashTree ["axes"] = [] from rfl] at hm
  exact List.not_mem_nil _ hm

/-- Claim C4, amended: on trees whose `default` attributes are plain names
(no slash paths), every node returned by `nx_find` is an element of the list
returned by `nx_find_all`. -/
theorem nx_find_mem_nx_find_all (g : Node) (args : List String) (n : Node)
    (hgd : goodDefaults g = true) (h : nx_find g args = some n) :
    n ∈ nx_find_all g args :=
  findF_mem_findAllF (nodeSize g) g args n hgd h

theorem nx_find_mem_nx_find_all_witness :
    sigDs ∈ nx_find_all sigTree ["signal"] :=
  nx_find_mem_nx_find_all sigTree ["signal"] sigDs rfl rfl

/-- Claim C5, counterexample: on `axesSlashTree` the token `axes` is matched
by no node (the specification's enumeration is empty: no child name equals
the `axes` pointer `a/b`), yet `nx_find` does not return `None` — it returns
the grandchild through the slash-path `default` entry. -/
theorem absence_violated_on_slash_default :
    specMatches axesSlashTree ["axes"] = [] ∧
    nx_find axesSlashTree ["axes"] ≠ none := by
  refine ⟨rfl, ?_⟩
  intro h
  rw [show nx_find axesSlashTree ["axes"] = some dsSlash from rfl] at h
  cases h

/-- Claim C5, amended: on trees satisfying the data-model invariants, for
every non-empty token sequence matched by no node, `nx_find` returns `None`,
`nx_find_all` returns the empty list, no exception is raised (the
exception-aware model returns `ok`), and `nx_find_data` returns the
caller-supplied default unchanged. -/
theorem nx_find_absence_behaviour (g : Node) (args : List String)
    (hargs : args ≠ []) (hu : uniqNames g = true) (hgd : goodDefaults g = true)
    (hdo : defChildrenOk g = true) (hno : specMatches g args = []) :
    nx_find g args = none ∧ nx_find_all g args = [] ∧
    nx_find_exc g args = .ok none ∧
    ∀ {α : Type} (d : α), nx_find_data g args d = Sum.inr d := by
  have hfind : nx_find g args = none := by
    unfold nx_find
    rw [findF_eq_specHead (nodeSize g) g args hu hgd hdo]
    rw [show specMatchesF true (nodeSize g) g args = specMatches g args from rfl,
      hno]
    rfl
  have hall : nx_find_all g args = [] :=
    findAllF_nil_of_spec_nil (nodeSize g) g args hu hdo hno
  have hexc : nx_find_exc g args = .ok none := by
    unfold nx_find_exc
    rw [findExcF_ok (nodeSize g) g args hargs]
    unfold nx_find at hfind
    rw [hfind]
  refine ⟨hfind, hall, hexc, ?_⟩
  intro α d
  unfold nx_find_data
  rw [hfind]

theorem nx_find_absence_behaviour_witness :
    nx_find sigTree ["NoSuchThing"] = none ∧
    nx_find_data sigTree ["NoSuchThing"] (-1 : Int) = Sum.inr (-1) :=
  have h := nx_find_absence_behaviour sigTree ["NoSuchThing"]
    (by decide) rfl rfl rfl rfl
  ⟨h.1, h.2.2.2 (-1)⟩

/-- Claim C6, counterexample: on an empty root group, an empty token sequence
is not signalled as a caller error — the search returns the plain `None` of
result absence, indistinguishable from a failed search. -/
theorem empty_tokens_empty_group_no_error :
    nx_find_exc (.group [] []) ([] : List String) = .ok none := rfl

/-- Claim C6, amended: only when the root group has at least one item does an
empty token sequence surface as a caller error — the `IndexError` of
`args[0]` in `_update_args` — which is then distinct from the `None` result
of search absence; an empty root group instead yields the absence result. -/
theorem empty_tokens_error_on_nonempty_group (attrs : Attrs)
    (children : List (String × Node)) (h : children ≠ []) :
    nx_find_exc (.group attrs children) [] = .error () ∧
    (Except.error () : Except Unit (Option Node)) ≠ .ok none := by
  constructor
  · unfold nx_find_exc
    have hsz : nodeSize (.group attrs children) = pairListSize children + 1 := by
      simp [nodeSize, Nat.add_comm]
    rw [hsz]
    exact findExcF_empty_args_succ _ attrs h
  · intro hcontra
    cases hcontra

theorem empty_tokens_error_on_nonempty_group_witness :
    nx_find_exc (.group [] [("data", plainDs)]) [] = .error () :=
  (empty_tokens_error_on_nonempty_group [] [("data", plainDs)]
    (List.cons_ne_nil _ _)).1

/-- Claim C7: `get_dataset_string` renders the numeric scalar `3.14159` with
`decimals=2` and `units='eV'` as exactly `"3.14 eV"`, and renders every
numeric dataset of more than one element as its dtype and shape, with a
result that does not depend on the stored array contents. -/
theorem get_dataset_string_rendering :
    get_dataset_string (.dataset [("decimals", .num 2), ("units", .str "eV")]
      (.num "float64" true [] [(314159, 5)])) = "3.14 eV" ∧
    ∀ (dtypeName : String) (isFloat : Bool) (shape : List Nat) (attrs : Attrs)
      (data data' : List Dec), 1 < shape.prod →
      get_dataset_string (.dataset attrs (.num dtypeName isFloat shape data)) =
        dtypeName ++ " " ++ pyShape shape ∧
      get_dataset_string (.dataset attrs (.num dtypeName isFloat shape data)) =
        get_dataset_string (.dataset attrs (.num dtypeName isFloat shape data')) := by
  refine ⟨rfl, ?_⟩
  intro tn fl shape attrs data data' h
  have h1 : ∀ (da : List Dec),
      get_dataset_string (.dataset attrs (.num tn fl shape da)) =
        tn ++ " " ++ pyShape shape := by
    intro da
    simp only [get_dataset_string]
    rw [if_pos h]
  exact ⟨h1 data, (h1 data).trans (h1 data').symm⟩

theorem get_dataset_string_rendering_witness :
    1 < ([2, 3] : List Nat).prod ∧
    get_dataset_string (.dataset []
        (.num "float64" true [2, 3] [(1, 0), (2, 0), (3, 0), (4, 0), (5, 0), (6, 0)])) =
      "float64" ++ " " ++ pyShape [2, 3] :=
  ⟨by decide, (get_dataset_string_rendering.2 "float64" true [2, 3] []
    [(1, 0), (2, 0), (3, 0), (4, 0), (5, 0), (6, 0)] [] (by decide)).1⟩

/-- Claim C8: a node missing the `NX_class` attribute or the `local_name`
attribute nevertheless has the empty string among its match names
(`attrs.get(attr, '')` contributes `''` instead of omitting it), so the
empty-string token is consumed at every such node; concretely, `nx_find`
with the token `''` returns the unrelated dataset `data` of `plainTree`. -/
theorem missing_attr_empty_string_member :
    (∀ (name : String) (obj : Node) (axes signal : String),
      (List.lookup NXCLASS (nodeAttrs obj) = none ∨
        List.lookup LOCAL_NAME (nodeAttrs obj) = none) →
      "" ∈ updateNames name obj axes signal) ∧
    nx_find plainTree [""] = some plainDs := by
  refine ⟨?_, rfl⟩
  intro name obj axes signal h
  unfold updateNames attrGetD
  rcases h with h | h <;> rw [h] <;> simp [bytes2str]

theorem missing_attr_empty_string_member_witness :
    (List.lookup NXCLASS (nodeAttrs plainDs) = none ∨
      List.lookup LOCAL_NAME (nodeAttrs plainDs) = none) ∧
    "" ∈ updateNames "data" plainDs "" "" :=
  ⟨Or.inl rfl, missing_attr_empty_string_member.1 "data" plainDs "" "" (Or.inl rfl)⟩

/-- Claim C9: whenever exactly one token remains and it resolves as a direct
member (name or slash path) of the current group, that member is returned
immediately; the fast path fires for plain child names and takes precedence
over the default-first/dataset-first priority order, as `fastTree` shows:
the code returns the direct child `A` although the priority enumeration
would put the `default` subtree's deeper `A` first. -/
theorem fast_path_precedence :
    (∀ (g : Node) (a : String) (n : Node), getPath g a = some n →
      nx_find g [a] = some n) ∧
    nx_find fastTree ["A"] = some dsTop ∧
    (specMatchesPure fastTree ["A"]).head? = some dsDeep := by
  refine ⟨?_, rfl, rfl⟩
  intro g a n h
  unfold nx_find
  cases hsz : nodeSize g with
  | zero =>
    have := nodeSize_pos g
    omega
  | succ f =>
    rw [nxFindF_succ]
    rw [show fastPath g [a] = getPath g a from rfl, h]

theorem fast_path_precedence_witness :
    getPath plainTree "data" = some plainDs ∧
    nx_find plainTree ["data"] = some plainDs :=
  ⟨rfl, fast_path_precedence.1 plainTree "data" plainDs rfl⟩

/-- Claim C10: `nx_find_data` returns the caller's default not only when
`nx_find` finds nothing but also when the match is a group — a matched group
is never returned — and decodes exactly the dataset matches: numeric dtype to
the raw numeric content, string dtype to the decoded strings. -/
theorem nx_find_data_dispatch :
    (∀ (g : Node) (args : List String) (attrs : Attrs)
       (ch : List (String × Node)) {α : Type} (d : α),
      nx_find g args = some (.group attrs ch) →
      nx_find_data g args d = Sum.inr d) ∧
    (∀ (g : Node) (args : List String) {α : Type} (d : α),
      nx_find g args = none → nx_find_data g args d = Sum.inr d) ∧
    (∀ (g : Node) (args : List String) (attrs : Attrs) (tn : String)
       (fl : Bool) (sh : List Nat) (da : List Dec) {α : Type} (d : α),
      nx_find g args = some (.dataset attrs (.num tn fl sh da)) →
      nx_find_data g args d = Sum.inl (.numArr sh da)) ∧
    (∀ (g : Node) (args : List String) (attrs : Attrs) (sh : List Nat)
       (da : List String) {α : Type} (d : α),
      nx_find g args = some (.dataset attrs (.str sh da)) →
      nx_find_data g args d = Sum.inl (.strArr sh da)) := by
  refine ⟨?_, ?_, ?_, ?_⟩
  · intro g args attrs ch α d h
    unfold nx_find_data
    rw [h]
  · intro g args α d h
    unfold nx_find_data
    rw [h]
  · intro g args attrs tn fl sh da α d h
    unfold nx_find_data
    rw [h]
  · intro g args attrs sh da α d h
    unfold nx_find_data
    rw [h]

theorem nx_find_data_dispatch_witness :
    nx_find_data entryTree ["NXentry"] (-1 : Int) = Sum.inr (-1) :=
  nx_find_data_dispatch.1 entryTree ["NXentry"] [(NXCLASS, .str "NXentry")] []
    (-1) rfl
